import Mathlib

/-!
Shallow embedding of the `queuectl` job-queue core
(`src/core/job_manager.py`), together with theorems checking the
natural-language specification against it.

Modelling conventions:
* Timestamps (`datetime.now(timezone.utc)`, epoch floats) are modelled as
  integers (epoch seconds).  All `created_at`/`updated_at` values produced by
  the code are UTC ISO-8601 strings of a single fixed format, so their
  lexicographic string order coincides with the numeric order of the instants
  they denote; the integer model preserves every comparison the code makes.
* A parsed datetime (the result of `dateutil.parser.parse`) is a `DT`:
  an instant (`epoch`) plus the UTC offset the value carries
  (`offset = none` models a naive datetime without tzinfo).  Comparing a
  naive datetime with the aware `now` raises `TypeError` in Python; the
  embedding reflects this by the explicit `offset` discrimination.
* The external `dateutil` parser is passed to `enqueue` as a function
  parameter `parse : String → Option DT` (`none` = the parse raised).
* The job store `{jobs: {id: job}}` is a Python dict; it is modelled as a
  `List Job` in insertion order with the dict update semantics
  (replace-in-place when the id exists, append otherwise).
* `execution_time` (a Python float) is modelled as `ℚ`.
-/

/-- The seven job states of `queuectl` (§3.1 of the spec, string literals in
`job_manager.py`). -/
inductive JState where
  | pending
  | scheduled
  | running
  | completed
  | failed
  | dlq
  | cancelled
deriving DecidableEq, Repr

/-- A parsed datetime: the instant it denotes (epoch seconds) and the UTC
offset (in minutes) carried by its `tzinfo`; `offset = none` models a naive
datetime. `isoformat()` renders a `DT` with its own offset, so two `DT`s
render to the same string iff they are equal. -/
structure DT where
  epoch : Int
  offset : Option Int
deriving DecidableEq, Repr

/-- A job record, after `job_manager.py`'s job dict.  Keys that the code may
leave absent are `Option`; `run_at` holds the parsed form of the stored
ISO string (the code stores `parsed.isoformat()` and re-parses it on use,
which round-trips to the same `DT`). -/
structure Job where
  id : String
  command : String
  state : JState
  priority : Int
  attempts : Nat
  max_retries : Int
  created_at : Int
  updated_at : Int
  output : String
  error : String
  timeout : Option Int := none
  run_at : Option DT := none
  started_at : Option Int := none
  completed_at : Option Int := none
  dlq_at : Option Int := none
  cancelled_at : Option Int := none
  retry_after : Option Int := none
  execution_time : Option ℚ := none
  worker_id : Option String := none
deriving DecidableEq, Repr

/-- The store: the values of `db['jobs']` in dict insertion order. -/
abbrev Db := List Job

/-- Lookup `db['jobs'].get(job_id)`: first (and, for a dict, only) entry with the id. -/
def lookupJob (db : Db) (jid : String) : Option Job :=
  db.find? (fun j => j.id == jid)

/-- Assignment `db['jobs'][j.id] = j` on a dict: replace in place if the key exists,
append otherwise. -/
def setJob (db : Db) (j : Job) : Db :=
  if db.any (fun x => x.id == j.id) then
    db.map (fun x => if x.id == j.id then j else x)
  else
    db ++ [j]

/-- The job dict that `JobManager.enqueue` builds (job_manager.py:70-97).
The fresh `uuid4` id is a parameter `jid`; `parse` stands for
`dateutil.parser.parse`; `now` is the single `datetime.now(timezone.utc)` of
the call.  Python's `if timeout:` and `if run_at:` are truthiness tests:
`timeout = 0` and `run_at = ""` take the false branch. -/
def enqueueJob (parse : String → Option DT) (jid command : String)
    (max_retries priority : Int) (timeout : Option Int)
    (run_at : Option String) (now : Int) : Job :=
  let base : Job :=
    { id := jid, command := command, state := JState.pending,
      priority := priority, attempts := 0, max_retries := max_retries,
      created_at := now, updated_at := now, output := "", error := "" }
  let withTimeout :=
    match timeout with
    | some t => if t ≠ 0 then { base with timeout := some t } else base
    | none => base
  match run_at with
  | some s =>
      if s = "" then withTimeout
      else
        match parse s with
        | some d =>
            { withTimeout with
              run_at := some d,
              state := JState.scheduled }
        | none => withTimeout
  | none => withTimeout

/-- Method `JobManager.enqueue` (job_manager.py:49-103): build the job dict and
store it under its id. -/
def enqueue (parse : String → Option DT) (jid command : String)
    (max_retries priority : Int) (timeout : Option Int)
    (run_at : Option String) (now : Int) (db : Db) : Db :=
  setJob db (enqueueJob parse jid command max_retries priority timeout
    run_at now)

/-- Method `JobManager.get_job` (job_manager.py:105-108). -/
def get_job (db : Db) (jid : String) : Option Job :=
  lookupJob db jid

/-- Method `JobManager.update_job` (job_manager.py:110-120): apply the updates dict
(`f`), then refresh `updated_at`; a missing id leaves the store unchanged. -/
def update_job (db : Db) (jid : String) (f : Job → Job) (now : Int) : Db :=
  match lookupJob db jid with
  | none => db
  | some j =>
      let j1 := f j
      setJob db { j1 with updated_at := now }

/-- The sort key of the claim path, `(-priority, created_at)` ascending
(job_manager.py:183-185), as a boolean total preorder. -/
def claimKeyLE (a b : Job) : Bool :=
  (-a.priority < -b.priority) ||
    (-a.priority == -b.priority && a.created_at ≤ b.created_at)

/-- The comparison `list_jobs` effectively sorts by: the same key with
`reverse=True`.  Python's `reverse=True` sorts as if every comparison were
reversed while keeping equal-key elements in their original order, which a
stable sort over the flipped `≤` reproduces. -/
def listKeyLE (a b : Job) : Bool :=
  claimKeyLE b a

/-- Insert `a` into the sorted list `l`, after every element strictly below
it and before every element greater than or equal to it.  Used by `pySort`;
placing `a` before its equals keeps elements with equal keys in their
original order. -/
def insSorted (le : α → α → Bool) (a : α) : List α → List α
  | [] => [a]
  | b :: l => if le b a && !(le a b) then b :: insSorted le a l
              else a :: b :: l

/-- Python's `list.sort` with comparison `le`: a stable sort.  (CPython's
Timsort and this insertion sort produce the same output: stability plus
sortedness under a total preorder determine the result uniquely.) -/
def pySort (le : α → α → Bool) : List α → List α
  | [] => []
  | a :: l => insSorted le a (pySort le l)

/-- Method `JobManager.list_jobs` (job_manager.py:122-142). -/
def list_jobs (db : Db) (state : Option JState) (limit : Nat) : List Job :=
  let jobs := db
  let jobs : List Job :=
    match state with
    | some s => jobs.filter (fun j => j.state == s)
    | none => jobs
  (pySort listKeyLE jobs).take limit

/-- A scheduled job's `run_at` passes the promotion test of
`get_next_job` (job_manager.py:170-177): the stored string parses (the key is
present: `run_at = some d`), the parsed value is timezone-aware
(`d.offset = some _`; comparing a naive datetime with the aware `now` raises
`TypeError`, which the `except` swallows, skipping the job), and its instant
is at or before `now`. -/
def runAtDue (j : Job) (now : Int) : Bool :=
  match j.run_at with
  | some d => match d.offset with
    | some _ => decide (d.epoch ≤ now)
    | none => false
  | none => false

/-- The `pending_jobs` list of `get_next_job` after the scheduled-job loop
(job_manager.py:159-177): the jobs already `pending` (in store order)
followed by the due `scheduled` jobs promoted in place to `pending`. -/
def candidatesOf (db : Db) (now : Int) : List Job :=
  let pending_jobs := db.filter (fun j => j.state == JState.pending)
  let scheduled_jobs := db.filter (fun j => j.state == JState.scheduled)
  pending_jobs ++
    (scheduled_jobs.filter (fun j => runAtDue j now)).map
      (fun j => { j with state := JState.pending })

/-- The store as the promotion loop of `get_next_job` leaves it in memory:
the scheduled-job dicts are mutated in place, so every due scheduled job is
now `pending` inside `db` itself (job_manager.py:170-175). -/
def promoteAll (db : Db) (now : Int) : Db :=
  db.map (fun x =>
    if x.state == JState.scheduled && runAtDue x now then
      { x with state := JState.pending }
    else x)

/-- Method `JobManager.get_next_job` (job_manager.py:144-197).  Returns the claimed
job (if any), the store as left on disk, and whether `_save_db` ran.  The
promotion loop mutates the job dicts in place, so when the document is saved
every due promotion of the pass is saved with it; when no candidate exists
the function returns before saving.  Python's stable `sort` with key
`(-priority, created_at)` is `pySort` over `claimKeyLE`.
`claimedJob` is the head candidate as locked in job_manager.py:187-191. -/
def claimedJob (j : Job) (worker_id : String) (now : Int) : Job :=
  { j with
    state := JState.running,
    worker_id := some worker_id,
    started_at := some now }

def get_next_job (db : Db) (now : Int) (worker_id : String) :
    Option Job × Db × Bool :=
  match pySort claimKeyLE (candidatesOf db now) with
  | [] => (none, db, false)
  | j :: _ =>
      (some (claimedJob j worker_id now),
        setJob (promoteAll db now) (claimedJob j worker_id now), true)

/-- Method `JobManager.mark_completed` (job_manager.py:199-207). -/
def mark_completed (db : Db) (jid output : String) (execution_time : ℚ)
    (now : Int) : Db :=
  update_job db jid (fun j =>
    { j with
      state := JState.completed,
      output := output,
      completed_at := some now,
      execution_time := some execution_time }) now

/-- The job record as `mark_failed` rewrites it (job_manager.py:218-240):
increment `attempts`, store `error`; at or past `max_retries` move to `dlq`
stamping `dlq_at`, otherwise to `failed` with
`retry_after = now + backoff_base ** attempts`; refresh `updated_at`. -/
def markFailedJob (backoff_base : Int) (j : Job) (error : String)
    (now : Int) : Job :=
  let a := j.attempts + 1
  let j1 := { j with attempts := a, error := error }
  let j2 :=
    if (a : Int) ≥ j.max_retries then
      { j1 with state := JState.dlq, dlq_at := some now }
    else
      { j1 with
        state := JState.failed,
        retry_after := some (now + backoff_base ^ a) }
  { j2 with updated_at := now }

/-- Method `JobManager.mark_failed` (job_manager.py:209-241).  `backoff_base` is
`config.backoff_base`; a missing id leaves the store unchanged. -/
def mark_failed (backoff_base : Int) (db : Db) (jid error : String)
    (now : Int) : Db :=
  match get_job db jid with
  | none => db
  | some j => setJob db (markFailedJob backoff_base j error now)

/-- Method `JobManager.get_retryable_jobs` (job_manager.py:243-253). -/
def get_retryable_jobs (db : Db) (now : Int) : List Job :=
  db.filter (fun j =>
    j.state == JState.failed && decide ((j.retry_after.getD 0) ≤ now))

/-- Method `JobManager.reset_for_retry` (job_manager.py:255-262). -/
def reset_for_retry (db : Db) (jid : String) (now : Int) : Db :=
  update_job db jid (fun j =>
    { j with
      state := JState.pending,
      error := "",
      retry_after := none }) now

/-- Method `JobManager.retry_job` (job_manager.py:264-279). -/
def retry_job (db : Db) (jid : String) (now : Int) : Bool × Db :=
  match get_job db jid with
  | none => (false, db)
  | some j =>
      if j.state = JState.failed ∨ j.state = JState.dlq then
        (true, update_job db jid (fun x =>
          { x with
            state := JState.pending,
            attempts := 0,
            error := "",
            retry_after := none }) now)
      else (false, db)

/-- Method `JobManager.cancel_job` (job_manager.py:281-294). -/
def cancel_job (db : Db) (jid : String) (now : Int) : Bool × Db :=
  match get_job db jid with
  | none => (false, db)
  | some j =>
      if j.state = JState.pending ∨ j.state = JState.scheduled then
        (true, update_job db jid (fun x =>
          { x with
            state := JState.cancelled,
            cancelled_at := some now }) now)
      else (false, db)

/-- The dict returned by `JobManager.get_stats` (job_manager.py:296-331). -/
structure Stats where
  total : Nat
  pending : Nat
  running : Nat
  completed : Nat
  failed : Nat
  dlq : Nat
  scheduled : Nat
  success_rate : ℚ
  avg_execution_time : ℚ
deriving DecidableEq, Repr

/-- Count `by_state.get(s, 0)`: how many jobs are in state `s`. -/
def countState (db : Db) (s : JState) : Nat :=
  (db.filter (fun j => j.state == s)).length

/-- Method `JobManager.get_stats` (job_manager.py:296-331).  The returned dict
reports six of the seven states (`cancelled` is omitted); `success_rate` is
true division; the average is over completed jobs that have an
`execution_time` key. -/
def get_stats (db : Db) : Stats :=
  let total := db.length
  let completed := countState db JState.completed
  let success_rate : ℚ := if total > 0 then (completed : ℚ) / total * 100 else 0
  let exec_times := db.filterMap (fun j =>
    if j.state == JState.completed then j.execution_time else none)
  let avg : ℚ :=
    if exec_times.isEmpty then 0 else exec_times.sum / exec_times.length
  { total := total,
    pending := countState db JState.pending,
    running := countState db JState.running,
    completed := completed,
    failed := countState db JState.failed,
    dlq := countState db JState.dlq,
    scheduled := countState db JState.scheduled,
    success_rate := success_rate,
    avg_execution_time := avg }

/-- Method `JobManager.purge_completed` (job_manager.py:333-350). -/
def purge_completed (db : Db) : Nat × Db :=
  let kept := db.filter (fun j => !(j.state == JState.completed))
  (db.length - kept.length, kept)

/-! ### Concrete fixtures used by witnesses and counterexamples -/

/-- A minimal job record used to build concrete stores. -/
def fixtureJob (jid : String) (st : JState) (pri created : Int) : Job :=
  { id := jid, command := "cmd", state := st, priority := pri,
    attempts := 0, max_retries := 3, created_at := created,
    updated_at := created, output := "", error := "" }

/-- A parser instance that never succeeds (any malformed `run_at`). -/
def parseFail : String → Option DT := fun _ => none

/-- The behaviour of `dateutil.parser.parse` on the well-formed input
`"2024-06-01T00:00:00+05:00"`: a timezone-aware datetime carrying the
input's own fixed offset of +05:00 (300 minutes).  dateutil keeps the
parsed string's tzinfo; it performs no conversion to UTC. -/
def parseP5 : String → Option DT := fun s =>
  if s = "2024-06-01T00:00:00+05:00" then
    some { epoch := 1717174800, offset := some 300 }
  else none

/-! ### C9 — updated_at on the claim transition -/

/-- The store after enqueueing job `j9` at time 0. -/
def db9a : Db := enqueue parseFail "j9" "c" 3 0 none none 0 []

/-- The store after a worker claims `j9` at time 5. -/
def db9b : Db := (get_next_job db9a 5 "w").2.1

/-! ### C6 — timestamp/state iff invariants -/

/-- Store: `j6` enqueued at 0 with `max_retries = 1`. -/
def db6a : Db := enqueue parseFail "j6" "c" 1 0 none none 0 []

/-- Then claimed by worker `w` at 1. -/
def db6b : Db := (get_next_job db6a 1 "w").2.1

/-- Then failed at 2: attempts 1 ≥ 1, so the job moves to `dlq`. -/
def db6c : Db := mark_failed 2 db6b "j6" "boom" 2

/-- Then admin-retried at 3: `retry_job` resets it to `pending`. -/
def db6d : Db := (retry_job db6c "j6" 3).2

/-! ### C4 — attempts bound -/

/-- Store: `j4` enqueued at 0 with `max_retries = 1`. -/
def db4a : Db := enqueue parseFail "j4" "c" 1 0 none none 0 []

/-- Then claimed at 1. -/
def db4b : Db := (get_next_job db4a 1 "w").2.1

/-- Then failed at 2: attempts 1 ≥ 1, job moves to `dlq`. -/
def db4c : Db := mark_failed 2 db4b "j4" "e1" 2

/-- Then failed again at 3: `mark_failed` has no state guard, so attempts
becomes 2 with `max_retries = 1`. -/
def db4d : Db := mark_failed 2 db4c "j4" "e2" 3

/-! ### C1 — concurrent claims -/

/-- Two workers running `get_next_job` concurrently with the interleaving
`A: _load_db; B: _load_db; A: _save_db; B: _save_db`: both compute from the
same loaded snapshot, and B's save lands last.  `get_next_job` takes no lock
of any kind (its docstring "Uses locking to prevent duplicate processing"
notwithstanding, job_manager.py:144-197 contains no locking construct), so
nothing prevents this interleaving across worker processes. -/
def raceBothClaim (db : Db) (now : Int) : Option Job × Option Job × Db :=
  let a := get_next_job db now "worker-A"
  let b := get_next_job db now "worker-B"
  (a.1, b.1, b.2.1)

/-- A due scheduled job used by the C10 witness. -/
def schedW : Job :=
  { fixtureJob "s" JState.scheduled 9 0 with
    run_at := some { epoch := 3, offset := some 0 } }

/-- The C10 witness store: one pending job and one due scheduled job. -/
def dbW : Db := [fixtureJob "p" JState.pending 0 0, schedW]

/-! ### C3 — the claim selects the best runnable job -/

/-- A job `get_next_job` can select: already `pending`, or `scheduled` with
a parseable, aware, due `run_at` (the promotion test of
job_manager.py:170-175). -/
def runnable (j : Job) (now : Int) : Bool :=
  j.state == JState.pending ||
    (j.state == JState.scheduled && runAtDue j now)

/-! ### Operation traces over the JobManager -/

/-- One public `JobManager` call (the mutating ones), with its arguments. -/
inductive Op where
  | enqueueOp (jid command : String) (max_retries priority : Int)
      (timeout : Option Int) (run_at : Option String)
  | claimOp (worker_id : String)
  | markCompletedOp (jid output : String) (execution_time : ℚ)
  | markFailedOp (jid error : String)
  | resetForRetryOp (jid : String)
  | retryJobOp (jid : String)
  | cancelJobOp (jid : String)
  | purgeOp
deriving DecidableEq, Repr

/-- Apply one operation to the store at wall-clock time `now`. -/
def step (parse : String → Option DT) (bb : Int) (db : Db) (op : Op)
    (now : Int) : Db :=
  match op with
  | Op.enqueueOp jid cmd mr pri t r => enqueue parse jid cmd mr pri t r now db
  | Op.claimOp w => (get_next_job db now w).2.1
  | Op.markCompletedOp jid out et => mark_completed db jid out et now
  | Op.markFailedOp jid e => mark_failed bb db jid e now
  | Op.resetForRetryOp jid => reset_for_retry db jid now
  | Op.retryJobOp jid => (retry_job db jid now).2
  | Op.cancelJobOp jid => (cancel_job db jid now).2
  | Op.purgeOp => (purge_completed db).2

/-- Run a timed trace of operations from a store. -/
def runTrace (parse : String → Option DT) (bb : Int) (db : Db) :
    List (Op × Int) → Db
  | [] => db
  | (op, t) :: rest => runTrace parse bb (step parse bb db op t) rest

/-- The discipline the Worker observes (worker.py:86-163): `mark_failed` and
`mark_completed` are only invoked on the job it just claimed (state
`running`), and `reset_for_retry` only on jobs returned by
`get_retryable_jobs` (state `failed`).  Operations on missing ids are
no-ops and are allowed. -/
def okWorkerOp (db : Db) (op : Op) : Bool :=
  match op with
  | Op.markFailedOp jid _ =>
      match lookupJob db jid with
      | some j => j.state == JState.running
      | none => true
  | Op.markCompletedOp jid _ _ =>
      match lookupJob db jid with
      | some j => j.state == JState.running
      | none => true
  | Op.resetForRetryOp jid =>
      match lookupJob db jid with
      | some j => j.state == JState.failed
      | none => true
  | _ => true

/-- Every operation of the trace respects the Worker's discipline, judged
against the store state at which it runs. -/
def workerTrace (parse : String → Option DT) (bb : Int) (db : Db) :
    List (Op × Int) → Bool
  | [] => true
  | (op, t) :: rest =>
      okWorkerOp db op && workerTrace parse bb (step parse bb db op t) rest

/-- Every `enqueue` of the trace uses `max_retries ≥ 1`. -/
def okEnqueueMR : Op → Bool
  | Op.enqueueOp _ _ mr _ _ _ => decide (1 ≤ mr)
  | _ => true

/-- All enqueues of a trace use `max_retries ≥ 1`. -/
def mrTrace (tr : List (Op × Int)) : Bool :=
  tr.all (fun p => okEnqueueMR p.1)

/-- The operation times are non-decreasing, starting from `t0` (wall-clock
time moves forward). -/
def timesMono : Int → List (Op × Int) → Bool
  | _, [] => true
  | t, (_, t') :: rest => decide (t ≤ t') && timesMono t' rest

/-- The time of the last operation of the trace (`t0` if empty). -/
def endTime (t0 : Int) : List (Op × Int) → Int
  | [] => t0
  | (_, t) :: rest => endTime t rest

/-- The C4 store invariant: every job admits at least one attempt, a `dlq`
job has exhausted exactly its `max_retries`, and any other job has attempts
strictly below `max_retries`. -/
def attemptsInv (j : Job) : Prop :=
  1 ≤ j.max_retries ∧
    (j.state = JState.dlq → (j.attempts : Int) = j.max_retries) ∧
    (j.state ≠ JState.dlq → (j.attempts : Int) < j.max_retries)

/-- The C6 store invariant: `completed_at` is set iff the state is
`completed`, `cancelled_at` iff `cancelled`; a `dlq` job always carries a
`dlq_at` (but a job reset out of `dlq` may retain a stale one). -/
def stampInv (j : Job) : Prop :=
  (j.completed_at.isSome ↔ j.state = JState.completed) ∧
  (j.cancelled_at.isSome ↔ j.state = JState.cancelled) ∧
  (j.state = JState.dlq → j.dlq_at.isSome = true)

/-- The C9 store invariant at current time `t`: timestamps are consistent
and no job was touched in the future. -/
def timeInv (t : Int) (db : Db) : Prop :=
  ∀ j ∈ db, j.created_at ≤ j.updated_at ∧ j.updated_at ≤ t

/-- The C4 witness trace: enqueue with two permitted retries, claim, one
failure. -/
def tr4w : List (Op × Int) :=
  [(Op.enqueueOp "j" "c" 2 0 none none, 0), (Op.claimOp "w", 1),
   (Op.markFailedOp "j" "e", 2)]

/-- The job left in the store by `tr4w`: one recorded failure, one retry
still permitted. -/
def j4w : Job :=
  { id := "j", command := "c", state := JState.failed, priority := 0,
    attempts := 1, max_retries := 2, created_at := 0, updated_at := 2,
    output := "", error := "e", started_at := some 1,
    retry_after := some 4, worker_id := some "w" }

/-- The C6 witness trace: enqueue (`max_retries = 1`), claim, fail into the
DLQ, admin-retry back to pending — the final job is `pending` with a stale
`dlq_at`, which the amended invariant permits. -/
def tr6w : List (Op × Int) :=
  [(Op.enqueueOp "j" "c" 1 0 none none, 0), (Op.claimOp "w", 1),
   (Op.markFailedOp "j" "boom", 2), (Op.retryJobOp "j", 3)]

/-- The job left in the store by `tr6w`: back to `pending` with a stale
`dlq_at`. -/
def j6w : Job :=
  { id := "j", command := "c", state := JState.pending, priority := 0,
    attempts := 0, max_retries := 1, created_at := 0, updated_at := 3,
    output := "", error := "", started_at := some 1, dlq_at := some 2,
    worker_id := some "w" }

/-- The C9 witness trace: enqueue at time 0, claim at time 5. -/
def tr9w : List (Op × Int) :=
  [(Op.enqueueOp "j9" "c" 3 0 none none, 0), (Op.claimOp "w", 5)]

/-! ### Basic lemmas about the store and the claim-path order -/

theorem claimKeyLE_refl (a : Job) : claimKeyLE a a = true := by
  simp [claimKeyLE]

theorem claimKeyLE_trans (a b c : Job) (hab : claimKeyLE a b = true)
    (hbc : claimKeyLE b c = true) : claimKeyLE a c = true := by
  simp only [claimKeyLE, Bool.or_eq_true, Bool.and_eq_true, decide_eq_true_eq,
    beq_iff_eq] at hab hbc ⊢
  omega

theorem claimKeyLE_total (a b : Job) :
    (claimKeyLE a b || claimKeyLE b a) = true := by
  simp only [claimKeyLE, Bool.or_eq_true, Bool.and_eq_true, decide_eq_true_eq,
    beq_iff_eq]
  omega

theorem claimKeyLE_ext {a a' b b' : Job} (hpa : a.priority = a'.priority)
    (hca : a.created_at = a'.created_at) (hpb : b.priority = b'.priority)
    (hcb : b.created_at = b'.created_at) :
    claimKeyLE a b = claimKeyLE a' b' := by
  simp [claimKeyLE, hpa, hca, hpb, hcb]

theorem lookupJob_map (g : Job → Job) (hg : ∀ x, (g x).id = x.id)
    (db : Db) (jid : String) :
    lookupJob (db.map g) jid = (lookupJob db jid).map g := by
  induction db with
  | nil => rfl
  | cons x xs ih =>
      unfold lookupJob
      simp only [List.map_cons]
      by_cases hx : x.id = jid
      · rw [List.find?_cons_of_pos (p := fun (j : Job) => j.id == jid) _
            (show ((g x).id == jid) = true by rw [hg]; exact beq_iff_eq.2 hx),
          List.find?_cons_of_pos (p := fun (j : Job) => j.id == jid) _
            (beq_iff_eq.2 hx)]
        rfl
      · rw [List.find?_cons_of_neg (p := fun (j : Job) => j.id == jid) _
            (show ¬ ((g x).id == jid) = true by rw [hg]; simpa using hx),
          List.find?_cons_of_neg (p := fun (j : Job) => j.id == jid) _
            (by simpa using hx)]
        exact ih

theorem find_map_replace (db : Db) (j : Job) (jid : String) (hne : jid ≠ j.id) :
    (db.map (fun x => if x.id == j.id then j else x)).find?
        (fun x => x.id == jid) =
      db.find? (fun x => x.id == jid) := by
  induction db with
  | nil => rfl
  | cons x xs ih =>
      simp only [List.map_cons]
      by_cases hx : x.id = j.id
      · rw [show (if x.id == j.id then j else x) = j by simp [hx]]
        rw [List.find?_cons_of_neg (p := fun (x : Job) => x.id == jid) _
            (show ¬ (j.id == jid) = true by simpa using fun h => hne h.symm),
          List.find?_cons_of_neg (p := fun (x : Job) => x.id == jid) _
            (show ¬ (x.id == jid) = true by
              simp only [beq_iff_eq]; rw [hx]; exact fun h => hne h.symm)]
        exact ih
      · rw [show (if x.id == j.id then j else x) = x by simp [hx]]
        by_cases hxi : x.id = jid
        · rw [List.find?_cons_of_pos (p := fun (x : Job) => x.id == jid) _
              (beq_iff_eq.2 hxi),
            List.find?_cons_of_pos (p := fun (x : Job) => x.id == jid) _
              (beq_iff_eq.2 hxi)]
        · rw [List.find?_cons_of_neg (p := fun (x : Job) => x.id == jid) _
              (by simpa using hxi),
            List.find?_cons_of_neg (p := fun (x : Job) => x.id == jid) _
              (by simpa using hxi)]
          exact ih

theorem find_map_replace_self (db : Db) (j : Job)
    (h : db.any (fun x => x.id == j.id) = true) :
    (db.map (fun x => if x.id == j.id then j else x)).find?
        (fun x => x.id == j.id) = some j := by
  induction db with
  | nil => simp at h
  | cons x xs ih =>
      simp only [List.map_cons]
      by_cases hx : x.id = j.id
      · rw [show (if x.id == j.id then j else x) = j by simp [hx]]
        rw [List.find?_cons_of_pos (p := fun (x : Job) => x.id == j.id) _
            (show (j.id == j.id) = true by simp)]
      · have h' : xs.any (fun x => x.id == j.id) = true := by
          simp only [List.any_cons, Bool.or_eq_true, beq_iff_eq] at h
          rcases h with h | h
          · exact absurd h hx
          · simpa using h
        rw [show (if x.id == j.id then j else x) = x by simp [hx]]
        rw [List.find?_cons_of_neg (p := fun (x : Job) => x.id == j.id) _
            (by simpa using hx)]
        exact ih h'

theorem lookupJob_none_of_not_any (db : Db) (jid : String)
    (h : db.any (fun x => x.id == jid) = false) :
    lookupJob db jid = none := by
  unfold lookupJob
  rw [List.find?_eq_none]
  intro x hx hex
  have : db.any (fun x => x.id == jid) = true :=
    List.any_eq_true.2 ⟨x, hx, hex⟩
  rw [h] at this
  exact Bool.false_ne_true this

theorem lookupJob_setJob (db : Db) (j : Job) (jid : String) :
    lookupJob (setJob db j) jid =
      if jid = j.id then some j else lookupJob db jid := by
  unfold setJob
  by_cases hany : db.any (fun x => x.id == j.id) = true
  · rw [if_pos hany]
    by_cases hj : jid = j.id
    · rw [if_pos hj]
      unfold lookupJob
      rw [hj]
      exact find_map_replace_self db j hany
    · rw [if_neg hj]
      unfold lookupJob
      exact find_map_replace db j jid hj
  · rw [if_neg hany]
    rw [Bool.not_eq_true] at hany
    by_cases hj : jid = j.id
    · rw [if_pos hj]
      unfold lookupJob
      rw [List.find?_append]
      have h1 : db.find? (fun x => x.id == jid) = none := by
        have := lookupJob_none_of_not_any db jid (hj ▸ hany)
        unfold lookupJob at this
        exact this
      rw [h1, Option.none_or]
      rw [List.find?_cons_of_pos (p := fun (j : Job) => j.id == jid) _
          (show (j.id == jid) = true by simp [hj])]
    · rw [if_neg hj]
      unfold lookupJob
      rw [List.find?_append]
      have h2 : List.find? (fun x => x.id == jid) [j] = none := by
        rw [List.find?_cons_of_neg (p := fun (x : Job) => x.id == jid) _
            (show ¬ (j.id == jid) = true by simpa using fun h => hj h.symm)]
        rfl
      rw [h2, Option.or_none]

theorem mem_setJob {x : Job} {db : Db} {j : Job} (h : x ∈ setJob db j) :
    x = j ∨ x ∈ db := by
  unfold setJob at h
  by_cases hany : db.any (fun y => y.id == j.id) = true
  · rw [if_pos hany] at h
    rcases List.mem_map.1 h with ⟨y, hy, hxy⟩
    by_cases hyi : y.id = j.id
    · simp only [hyi, beq_self_eq_true, if_pos] at hxy
      left; exact hxy.symm
    · rw [if_neg (by simpa using hyi)] at hxy
      right; exact hxy ▸ hy
  · rw [if_neg hany] at h
    rcases List.mem_append.1 h with h | h
    · right; exact h
    · left; simpa using h

theorem self_mem_setJob (db : Db) (j : Job) : j ∈ setJob db j := by
  unfold setJob
  by_cases hany : db.any (fun y => y.id == j.id) = true
  · rw [if_pos hany]
    rcases List.any_eq_true.1 hany with ⟨y, hy, hyi⟩
    exact List.mem_map.2 ⟨y, hy, by simp [beq_iff_eq.1 hyi]⟩
  · rw [if_neg hany]
    exact List.mem_append.2 (Or.inr (by simp))

/-! ### C2 — mark_failed retry/DLQ transition -/

theorem lookupJob_id {db : Db} {jid : String} {j : Job}
    (h : lookupJob db jid = some j) : j.id = jid := by
  have := List.find?_some h
  simpa using this

/-- C2: for every Job present in the store, `mark_failed` increments
`attempts` by exactly one and stores the error string; if the incremented
attempts reach `max_retries` the job moves to `dlq` with `dlq_at = now`,
otherwise to `failed` with `retry_after = now + backoff_base ^ attempts`
(integer exponentiation with the incremented attempts). -/
theorem c2_mark_failed_transition (bb : Int) (db : Db) (jid err : String)
    (now : Int) (j : Job) (h : lookupJob db jid = some j) :
    ∃ j', lookupJob (mark_failed bb db jid err now) jid = some j' ∧
      j'.attempts = j.attempts + 1 ∧ j'.error = err ∧
      (((j.attempts : Int) + 1 ≥ j.max_retries) →
        j'.state = JState.dlq ∧ j'.dlq_at = some now) ∧
      (((j.attempts : Int) + 1 < j.max_retries) →
        j'.state = JState.failed ∧
        j'.retry_after = some (now + bb ^ (j.attempts + 1))) := by
  have hid : j.id = jid := lookupJob_id h
  have hlook : lookupJob (mark_failed bb db jid err now) jid =
      some (markFailedJob bb j err now) := by
    unfold mark_failed get_job
    rw [h, lookupJob_setJob]
    have hjid : (markFailedJob bb j err now).id = j.id := by
      by_cases hc : j.max_retries ≤ (j.attempts : Int) + 1 <;>
        simp [markFailedJob, hc]
    rw [hjid, hid, if_pos rfl]
  by_cases hc : j.max_retries ≤ (j.attempts : Int) + 1
  · refine ⟨markFailedJob bb j err now, hlook, ?_, ?_, ?_, ?_⟩
    · simp [markFailedJob, hc]
    · simp [markFailedJob, hc]
    · intro _
      constructor <;> simp [markFailedJob, hc]
    · intro hlt
      exfalso
      omega
  · refine ⟨markFailedJob bb j err now, hlook, ?_, ?_, ?_, ?_⟩
    · simp [markFailedJob, hc]
    · simp [markFailedJob, hc]
    · intro hge
      exfalso
      omega
    · intro _
      constructor <;> simp [markFailedJob, hc]

/-- Witness for C2 at a concrete store: a running job with one prior
attempt and `max_retries = 3` moves to `failed` with backoff `2^2`. -/
theorem c2_mark_failed_transition_witness :
    ∃ j', lookupJob (mark_failed 2
        [{ fixtureJob "a" JState.running 0 0 with attempts := 1 }]
        "a" "boom" 7) "a" = some j' ∧
      j'.attempts = 1 + 1 ∧ j'.error = "boom" ∧
      (((1 : Int) + 1 ≥ 3) → j'.state = JState.dlq ∧ j'.dlq_at = some 7) ∧
      (((1 : Int) + 1 < 3) → j'.state = JState.failed ∧
        j'.retry_after = some (7 + 2 ^ (1 + 1))) :=
  c2_mark_failed_transition 2
    [{ fixtureJob "a" JState.running 0 0 with attempts := 1 }] "a" "boom" 7
    { fixtureJob "a" JState.running 0 0 with attempts := 1 } rfl

/-! ### C5 — list_jobs ordering -/

/-- C5 (divergence witness): with two pending jobs of priorities 5 and 0,
`list_jobs` returns the priority-0 job first.  The key
`(-priority, created_at)` combined with `reverse=True` sorts ascending by
priority, contradicting both the claim and the code's own comment
"Sort by priority (desc)" (job_manager.py:139). -/
theorem c5_list_jobs_low_priority_first :
    (list_jobs [fixtureJob "hi" JState.pending 5 0,
                fixtureJob "lo" JState.pending 0 1] none 100).map Job.id
      = ["lo", "hi"] := by
  rfl

/-! ### C7 — get_stats consistency -/

/-- C7 (counterexample): a store holding one cancelled job has `total = 1`
but the per-state counts returned by `get_stats` (which omit `cancelled`)
sum to 0, so the claimed `sum(per_state) = total` fails. -/
theorem c7_stats_cancelled_cex :
    (get_stats [fixtureJob "c" JState.cancelled 0 0]).total = 1 ∧
    (get_stats [fixtureJob "c" JState.cancelled 0 0]).pending +
      (get_stats [fixtureJob "c" JState.cancelled 0 0]).running +
      (get_stats [fixtureJob "c" JState.cancelled 0 0]).completed +
      (get_stats [fixtureJob "c" JState.cancelled 0 0]).failed +
      (get_stats [fixtureJob "c" JState.cancelled 0 0]).dlq +
      (get_stats [fixtureJob "c" JState.cancelled 0 0]).scheduled = 0 ∧
    (1 : Nat) ≠ 0 := by
  refine ⟨rfl, rfl, by omega⟩

theorem countState_cons (x : Job) (xs : Db) (s : JState) :
    countState (x :: xs) s =
      (if x.state = s then 1 else 0) + countState xs s := by
  by_cases h : x.state = s <;>
    simp [countState, List.filter_cons, h, Nat.add_comm]

/-- C7 (amended): `total` is the store size; the six per-state counts that
`get_stats` reports sum to the number of jobs in those six states — i.e. to
`total` minus the number of `cancelled` jobs, which the returned dict omits;
`success_rate` is `completed/total·100` (0 when the store is empty) and
`avg_execution_time` is the mean `execution_time` over completed jobs that
record one (0 when none do). -/
theorem c7_stats_amended (db : Db) :
    (get_stats db).total = db.length ∧
    (get_stats db).pending + (get_stats db).running +
      (get_stats db).completed + (get_stats db).failed +
      (get_stats db).dlq + (get_stats db).scheduled
      = (db.filter (fun j => !(j.state == JState.cancelled))).length ∧
    (get_stats db).success_rate =
      (if 0 < db.length then
        ((db.filter (fun j => j.state == JState.completed)).length : ℚ)
          / db.length * 100
      else 0) ∧
    (get_stats db).avg_execution_time =
      (let ts := db.filterMap (fun j =>
        if j.state == JState.completed then j.execution_time else none)
      if ts.isEmpty then 0 else ts.sum / ts.length) := by
  refine ⟨rfl, ?_, rfl, rfl⟩
  induction db with
  | nil => rfl
  | cons x xs ih =>
      simp only [get_stats] at ih ⊢
      rw [countState_cons, countState_cons, countState_cons, countState_cons,
        countState_cons, countState_cons, List.filter_cons]
      cases hx : x.state <;> simp [hx] <;> omega

/-! ### C8 — enqueue run_at handling -/

/-- C8 (counterexample): enqueueing with the well-formed
`run_at = "2024-06-01T00:00:00+05:00"` stores the job as `scheduled`, but
`run_at` is stored via `parsed.isoformat()` with the input's own +05:00
offset — the code performs no normalization to UTC, contradicting the
claimed "stored as normalized UTC ISO-8601". -/
theorem c8_run_at_not_utc_normalized :
    lookupJob (enqueue parseP5 "job-1" "cmd" 3 0 none
        (some "2024-06-01T00:00:00+05:00") 0 []) "job-1"
      = some { id := "job-1", command := "cmd", state := JState.scheduled,
               priority := 0, attempts := 0, max_retries := 3,
               created_at := 0, updated_at := 0, output := "", error := "",
               run_at := some { epoch := 1717174800, offset := some 300 } } ∧
    (some (300 : Int)) ≠ some (0 : Int) := by
  exact ⟨rfl, by decide⟩

/-- C8 (amended): `enqueue` stores the job under the fresh id with
`attempts = 0` and `created_at = updated_at = now`; when `run_at` is given
and parses, the state is `scheduled` and the parsed timestamp is stored
as-is — rendered by `isoformat()` with the offset the input carried, not
normalized to UTC; when `run_at` is absent, empty (falsy), or fails to
parse, no `run_at` is stored and the state is `pending`. -/
theorem c8_enqueue_amended (parse : String → Option DT) (jid cmd : String)
    (mr pri : Int) (timeout : Option Int) (runRaw : Option String)
    (now : Int) (db : Db) :
    ∃ j, lookupJob (enqueue parse jid cmd mr pri timeout runRaw now db) jid
        = some j ∧
      j.attempts = 0 ∧ j.created_at = now ∧ j.updated_at = now ∧
      (∀ s d, runRaw = some s → s ≠ "" → parse s = some d →
        j.state = JState.scheduled ∧ j.run_at = some d) ∧
      ((runRaw = none ∨ runRaw = some "" ∨
          (∃ s, runRaw = some s ∧ parse s = none)) →
        j.state = JState.pending ∧ j.run_at = none) := by
  have hid : (enqueueJob parse jid cmd mr pri timeout runRaw now).id = jid := by
    unfold enqueueJob
    (repeat' split) <;> rfl
  refine ⟨enqueueJob parse jid cmd mr pri timeout runRaw now, ?_, ?_, ?_, ?_,
    ?_, ?_⟩
  · unfold enqueue
    rw [lookupJob_setJob, hid, if_pos rfl]
  · unfold enqueueJob
    (repeat' split) <;> rfl
  · unfold enqueueJob
    (repeat' split) <;> rfl
  · unfold enqueueJob
    (repeat' split) <;> rfl
  · intro s d h1 h2 h3
    subst h1
    cases timeout with
    | none => constructor <;> simp [enqueueJob, h2, h3]
    | some t =>
        by_cases ht : t ≠ 0 <;> constructor <;> simp [enqueueJob, h2, h3, ht]
  · intro hdrop
    rcases hdrop with h | h | ⟨s, hs, hp⟩
    · subst h
      cases timeout with
      | none => constructor <;> simp [enqueueJob]
      | some t => by_cases ht : t ≠ 0 <;> constructor <;> simp [enqueueJob, ht]
    · subst h
      cases timeout with
      | none => constructor <;> simp [enqueueJob]
      | some t => by_cases ht : t ≠ 0 <;> constructor <;> simp [enqueueJob, ht]
    · subst hs
      by_cases hse : s = ""
      · cases timeout with
        | none => constructor <;> simp [enqueueJob, hse]
        | some t =>
            by_cases ht : t ≠ 0 <;> constructor <;> simp [enqueueJob, hse, ht]
      · cases timeout with
        | none => constructor <;> simp [enqueueJob, hse, hp]
        | some t =>
            by_cases ht : t ≠ 0 <;> constructor <;>
              simp [enqueueJob, hse, hp, ht]

/-- Witness for C8's amended statement at a concrete call. -/
theorem c8_enqueue_amended_witness :
    ∃ j, lookupJob (enqueue parseP5 "w8" "c" 3 0 none
        (some "2024-06-01T00:00:00+05:00") 0 []) "w8" = some j ∧
      j.attempts = 0 ∧ j.created_at = 0 ∧ j.updated_at = 0 ∧
      (∀ s d, some "2024-06-01T00:00:00+05:00" = some s → s ≠ "" →
        parseP5 s = some d →
        j.state = JState.scheduled ∧ j.run_at = some d) ∧
      ((some "2024-06-01T00:00:00+05:00" = none ∨
          some "2024-06-01T00:00:00+05:00" = some "" ∨
          (∃ s, some "2024-06-01T00:00:00+05:00" = some s ∧
            parseP5 s = none)) →
        j.state = JState.pending ∧ j.run_at = none) :=
  c8_enqueue_amended parseP5 "w8" "c" 3 0 none
    (some "2024-06-01T00:00:00+05:00") 0 []

/-- C9 (counterexample): the claim transition performed by `get_next_job`
sets `state`, `worker_id` and `started_at` but never touches `updated_at`
(job_manager.py:187-194 writes the job back without refreshing it): after a
claim at time 5 the job's `updated_at` is still its enqueue time 0, so
"updated_at is refreshed by every mutation including the claim" fails. -/
theorem c9_claim_does_not_refresh_updated_at :
    lookupJob db9b "j9" =
      some { id := "j9", command := "c", state := JState.running,
             priority := 0, attempts := 0, max_retries := 3,
             created_at := 0, updated_at := 0, output := "", error := "",
             started_at := some 5, worker_id := some "w" } ∧
    (0 : Int) ≠ 5 := by
  exact ⟨rfl, by decide⟩

/-- C6 (counterexample): `retry_job` clears `error`/`retry_after` but not
`dlq_at` (job_manager.py:271-276), so after retrying a DLQ'd job the store
holds a `pending` job with `dlq_at` still set — "dlq_at is set iff the state
is dlq" fails. -/
theorem c6_retry_job_leaves_dlq_at_set :
    lookupJob db6d "j6" =
      some { id := "j6", command := "c", state := JState.pending,
             priority := 0, attempts := 0, max_retries := 1,
             created_at := 0, updated_at := 3, output := "", error := "",
             started_at := some 1, dlq_at := some 2,
             worker_id := some "w" } ∧
    (some (2 : Int)).isSome = true ∧ JState.pending ≠ JState.dlq := by
  exact ⟨rfl, rfl, by decide⟩

/-- C4 (counterexample): `mark_failed` increments `attempts` regardless of
the job's state, so a second `mark_failed` on a job already in `dlq` drives
`attempts` to 2 past `max_retries = 1` — the claimed bound
`attempts ≤ max_retries` fails for this operation sequence. -/
theorem c4_attempts_exceed_max_retries_cex :
    lookupJob db4d "j4" =
      some { id := "j4", command := "c", state := JState.dlq,
             priority := 0, attempts := 2, max_retries := 1,
             created_at := 0, updated_at := 3, output := "", error := "e2",
             started_at := some 1, dlq_at := some 3,
             worker_id := some "w" } ∧
    ¬ ((2 : Int) ≤ 1) := by
  exact ⟨rfl, by decide⟩

/-- C1 (failing execution): from a store with the single pending job `j1`
and no reset to pending anywhere in the trace, both workers' `claim` calls
return job `j1` (as distinct records owned by different workers) — the
claimed at-most-one-claim guarantee fails because no cross-process lock
exists in the code. -/
theorem c1_both_workers_claim_same_job :
    ((raceBothClaim [fixtureJob "j1" JState.pending 0 0] 0).1).map Job.id
        = some "j1" ∧
    ((raceBothClaim [fixtureJob "j1" JState.pending 0 0] 0).2.1).map Job.id
        = some "j1" ∧
    (raceBothClaim [fixtureJob "j1" JState.pending 0 0] 0).1 ≠
      (raceBothClaim [fixtureJob "j1" JState.pending 0 0] 0).2.1 := by
  exact ⟨rfl, rfl, by decide⟩

/-! ### C10 — all due promotions are committed with the claim's save -/

theorem exists_setJob_image {db : Db} {x : Job} (hx : x ∈ db) (j : Job) :
    ∃ x', x' ∈ setJob db j ∧
      (if x.id = j.id then x' = j else x' = x) := by
  unfold setJob
  by_cases hany : db.any (fun y => y.id == j.id) = true
  · rw [if_pos hany]
    refine ⟨if x.id == j.id then j else x, List.mem_map.2 ⟨x, hx, rfl⟩, ?_⟩
    by_cases hxi : x.id = j.id <;> simp [hxi]
  · rw [if_neg hany]
    refine ⟨x, List.mem_append.2 (Or.inl hx), ?_⟩
    have hne : ¬ x.id = j.id := by
      intro he
      apply hany
      exact List.any_eq_true.2 ⟨x, hx, by simp [he]⟩
    simp [hne]

/-- C10: whenever `get_next_job` returns a job, the saved document contains
every job that was `scheduled` with a due, parseable `run_at` in state
`pending` (or `running` for the one selected) — the in-place promotions are
all committed by the single save; and when it returns none, nothing is
written and the store is unchanged. -/
theorem c10_promotions_persisted (db : Db) (now : Int) (wid : String) :
    (∀ j, (get_next_job db now wid).1 = some j →
      (get_next_job db now wid).2.2 = true ∧
      (∀ s, s ∈ db → s.state = JState.scheduled → runAtDue s now = true →
        ∃ s', s' ∈ (get_next_job db now wid).2.1 ∧ s'.id = s.id ∧
          (s'.state = JState.pending ∨
            (s'.id = j.id ∧ s'.state = JState.running)))) ∧
    ((get_next_job db now wid).1 = none →
      (get_next_job db now wid).2.2 = false ∧
      (get_next_job db now wid).2.1 = db) := by
  constructor
  · intro j hj
    cases hms : pySort claimKeyLE (candidatesOf db now) with
    | nil => simp [get_next_job, hms] at hj
    | cons c rest =>
        have hjc : j = claimedJob c wid now := by
          have := hj
          simp only [get_next_job, hms] at this
          simpa using this.symm
        constructor
        · simp [get_next_job, hms]
        · intro s hs hsch hdue
          have hmem : ({ s with state := JState.pending } : Job)
              ∈ promoteAll db now := by
            unfold promoteAll
            exact List.mem_map.2 ⟨s, hs, by simp [hsch, hdue]⟩
          obtain ⟨s', hs', hcond⟩ :=
            exists_setJob_image hmem (claimedJob c wid now)
          have hs'' : s' ∈ (get_next_job db now wid).2.1 := by
            simpa [get_next_job, hms] using hs'
          by_cases hid : ({ s with state := JState.pending } : Job).id =
              (claimedJob c wid now).id
          · rw [if_pos hid] at hcond
            refine ⟨s', hs'', ?_, Or.inr ⟨?_, ?_⟩⟩
            · rw [hcond]
              exact hid.symm
            · rw [hcond, hjc]
            · rw [hcond]
              rfl
          · rw [if_neg hid] at hcond
            exact ⟨s', hs'', by rw [hcond], Or.inl (by rw [hcond])⟩
  · intro hnone
    cases hms : pySort claimKeyLE (candidatesOf db now) with
    | nil => simp [get_next_job, hms]
    | cons c rest => simp [get_next_job, hms] at hnone

/-- Witness for C10 at a concrete claim: the scheduled job (priority 9)
wins the claim and every due promotion is present in the saved store. -/
theorem c10_promotions_persisted_witness :
    (get_next_job dbW 10 "w").2.2 = true ∧
    (∀ s, s ∈ dbW → s.state = JState.scheduled → runAtDue s 10 = true →
      ∃ s', s' ∈ (get_next_job dbW 10 "w").2.1 ∧ s'.id = s.id ∧
        (s'.state = JState.pending ∨
          (s'.id = (claimedJob schedW "w" 10).id ∧
            s'.state = JState.running))) :=
  (c10_promotions_persisted dbW 10 "w").1 (claimedJob schedW "w" 10) rfl

/-! ### pySort lemmas -/

theorem insSorted_perm (le : α → α → Bool) (a : α) (l : List α) :
    (insSorted le a l).Perm (a :: l) := by
  induction l with
  | nil => exact List.Perm.refl _
  | cons b t ih =>
      unfold insSorted
      by_cases h : (le b a && !(le a b)) = true
      · rw [if_pos h]
        exact (ih.cons b).trans (List.Perm.swap a b t)
      · rw [if_neg h]

theorem mem_insSorted {le : α → α → Bool} {a x : α} {l : List α} :
    x ∈ insSorted le a l ↔ x = a ∨ x ∈ l := by
  rw [(insSorted_perm le a l).mem_iff]
  simp

theorem pySort_perm (le : α → α → Bool) (l : List α) :
    (pySort le l).Perm l := by
  induction l with
  | nil => exact List.Perm.refl _
  | cons a t ih => exact (insSorted_perm le a (pySort le t)).trans (ih.cons a)

theorem pairwise_insSorted (le : α → α → Bool)
    (htrans : ∀ a b c, le a b = true → le b c = true → le a c = true)
    (htotal : ∀ a b, (le a b || le b a) = true)
    (a : α) (l : List α) (h : l.Pairwise (fun x y => le x y = true)) :
    (insSorted le a l).Pairwise (fun x y => le x y = true) := by
  induction l with
  | nil => simp [insSorted]
  | cons b t ih =>
      rcases List.pairwise_cons.1 h with ⟨hb, ht⟩
      unfold insSorted
      by_cases hc : (le b a && !(le a b)) = true
      · rw [if_pos hc]
        refine List.pairwise_cons.2 ⟨?_, ih ht⟩
        intro x hx
        have hc' : le b a = true ∧ le a b = false := by
          simpa [Bool.and_eq_true, Bool.not_eq_true'] using hc
        rcases mem_insSorted.1 hx with rfl | hx
        · exact hc'.1
        · exact hb x hx
      · rw [if_neg hc]
        have hab : le a b = true := by
          have htot := htotal a b
          simp only [Bool.or_eq_true] at htot
          rcases htot with h1 | h1
          · exact h1
          · by_cases h2 : le a b = true
            · exact h2
            · exfalso
              apply hc
              simp [h1, h2]
        refine List.pairwise_cons.2 ⟨?_, h⟩
        intro x hx
        rcases List.mem_cons.1 hx with rfl | hx
        · exact hab
        · exact htrans a b x hab (hb x hx)

theorem pairwise_pySort (le : α → α → Bool)
    (htrans : ∀ a b c, le a b = true → le b c = true → le a c = true)
    (htotal : ∀ a b, (le a b || le b a) = true) (l : List α) :
    (pySort le l).Pairwise (fun x y => le x y = true) := by
  induction l with
  | nil => simp [pySort]
  | cons a t ih => exact pairwise_insSorted le htrans htotal a _ ih

theorem candidates_of_runnable {db : Db} {now : Int} {k : Job}
    (hk : k ∈ db) (hr : runnable k now = true) :
    ∃ k', k' ∈ candidatesOf db now ∧ k'.id = k.id ∧
      k'.priority = k.priority ∧ k'.created_at = k.created_at := by
  unfold runnable at hr
  rcases Bool.or_eq_true _ _ ▸ hr with hp | hsch
  · refine ⟨k, ?_, rfl, rfl, rfl⟩
    unfold candidatesOf
    exact List.mem_append.2 (Or.inl (List.mem_filter.2 ⟨hk, hp⟩))
  · have h1 : (k.state == JState.scheduled) = true :=
      (Bool.and_eq_true _ _ ▸ hsch).1
    have h2 : runAtDue k now = true := (Bool.and_eq_true _ _ ▸ hsch).2
    refine ⟨{ k with state := JState.pending }, ?_, rfl, rfl, rfl⟩
    unfold candidatesOf
    refine List.mem_append.2 (Or.inr ?_)
    exact List.mem_map.2
      ⟨k, List.mem_filter.2 ⟨List.mem_filter.2 ⟨hk, h1⟩, h2⟩, rfl⟩

theorem candidates_origin {db : Db} {now : Int} {c : Job}
    (hc : c ∈ candidatesOf db now) :
    ∃ k, k ∈ db ∧ runnable k now = true ∧
      (c = k ∨ c = { k with state := JState.pending }) := by
  unfold candidatesOf at hc
  rcases List.mem_append.1 hc with h | h
  · obtain ⟨hmem, hp⟩ := List.mem_filter.1 h
    exact ⟨c, hmem, by unfold runnable; simp [hp], Or.inl rfl⟩
  · obtain ⟨k, hk, hck⟩ := List.mem_map.1 h
    obtain ⟨hk1, hdue⟩ := List.mem_filter.1 hk
    obtain ⟨hkdb, hsch⟩ := List.mem_filter.1 hk1
    subst hck
    exact ⟨k, hkdb, by unfold runnable; simp [hsch, hdue], Or.inr rfl⟩

/-- C3: when the store holds at least one runnable job (pending, or
scheduled with a parseable aware `run_at ≤ now`), `get_next_job` returns a
job whose origin `j0` is runnable, has maximal priority among the runnable
jobs and, among those of maximal priority, minimal `created_at`
(`claimKeyLE j0 k` for every runnable `k`); the returned job is the origin
with state `running`, `worker_id` set to the caller and
`started_at = now`, and it is stored as such in the saved document. -/
theorem c3_claim_selects_best (db : Db) (now : Int) (wid : String)
    (h : ∃ j, j ∈ db ∧ runnable j now = true) :
    ∃ jr j0, (get_next_job db now wid).1 = some jr ∧
      j0 ∈ db ∧ runnable j0 now = true ∧
      jr.id = j0.id ∧ jr.priority = j0.priority ∧
      jr.created_at = j0.created_at ∧
      (∀ k, k ∈ db → runnable k now = true → claimKeyLE j0 k = true) ∧
      jr.state = JState.running ∧ jr.worker_id = some wid ∧
      jr.started_at = some now ∧
      lookupJob (get_next_job db now wid).2.1 jr.id = some jr := by
  obtain ⟨j, hjdb, hjr⟩ := h
  obtain ⟨j', hj', _⟩ := candidates_of_runnable hjdb hjr
  cases hms : pySort claimKeyLE (candidatesOf db now) with
  | nil =>
      exfalso
      have hmem : j' ∈ pySort claimKeyLE (candidatesOf db now) :=
        (pySort_perm claimKeyLE (candidatesOf db now)).mem_iff.2 hj'
      rw [hms] at hmem
      simp at hmem
  | cons c rest =>
      have hcmem : c ∈ candidatesOf db now := by
        have : c ∈ pySort claimKeyLE (candidatesOf db now) :=
          hms ▸ List.mem_cons_self c rest
        exact (pySort_perm claimKeyLE (candidatesOf db now)).mem_iff.1 this
      obtain ⟨j0, hj0db, hj0r, hco⟩ := candidates_origin hcmem
      have hid : c.id = j0.id := by rcases hco with rfl | rfl <;> rfl
      have hpri : c.priority = j0.priority := by
        rcases hco with rfl | rfl <;> rfl
      have hcre : c.created_at = j0.created_at := by
        rcases hco with rfl | rfl <;> rfl
      refine ⟨claimedJob c wid now, j0, ?_, hj0db, hj0r, hid, hpri, hcre,
        ?_, rfl, rfl, rfl, ?_⟩
      · simp [get_next_job, hms]
      · intro k hk hkr
        obtain ⟨k', hk', hkid, hkpri, hkcre⟩ := candidates_of_runnable hk hkr
        have hk'mem : k' ∈ c :: rest := by
          rw [← hms]
          exact (pySort_perm claimKeyLE (candidatesOf db now)).mem_iff.2 hk'
        have hle : claimKeyLE c k' = true := by
          rcases List.mem_cons.1 hk'mem with heq | hmem
          · rw [heq]
            exact claimKeyLE_refl c
          · have hp := pairwise_pySort claimKeyLE claimKeyLE_trans
              claimKeyLE_total (candidatesOf db now)
            rw [hms] at hp
            exact (List.pairwise_cons.1 hp).1 k' hmem
        have heq : claimKeyLE j0 k = claimKeyLE c k' :=
          (claimKeyLE_ext hpri hcre hkpri hkcre).symm
        rw [heq]
        exact hle
      · have : (get_next_job db now wid).2.1 =
            setJob (promoteAll db now) (claimedJob c wid now) := by
          simp [get_next_job, hms]
        rw [this, lookupJob_setJob, if_pos rfl]

/-- Witness for C3 at a concrete store: of two pending jobs with priorities
5 and 0, the claim selects the priority-5 one. -/
theorem c3_claim_selects_best_witness :
    ∃ jr j0, (get_next_job [fixtureJob "a" JState.pending 5 0,
        fixtureJob "b" JState.pending 0 1] 7 "w").1 = some jr ∧
      j0 ∈ [fixtureJob "a" JState.pending 5 0,
        fixtureJob "b" JState.pending 0 1] ∧ runnable j0 7 = true ∧
      jr.id = j0.id ∧ jr.priority = j0.priority ∧
      jr.created_at = j0.created_at ∧
      (∀ k, k ∈ [fixtureJob "a" JState.pending 5 0,
          fixtureJob "b" JState.pending 0 1] → runnable k 7 = true →
        claimKeyLE j0 k = true) ∧
      jr.state = JState.running ∧ jr.worker_id = some "w" ∧
      jr.started_at = some 7 ∧
      lookupJob (get_next_job [fixtureJob "a" JState.pending 5 0,
        fixtureJob "b" JState.pending 0 1] 7 "w").2.1 jr.id = some jr :=
  c3_claim_selects_best
    [fixtureJob "a" JState.pending 5 0, fixtureJob "b" JState.pending 0 1]
    7 "w" ⟨fixtureJob "a" JState.pending 5 0, by decide, by decide⟩

/-! ### Helper lemmas for trace invariants -/

theorem enqueueJob_attempts (parse : String → Option DT) (jid cmd : String)
    (mr pri : Int) (timeout : Option Int) (runRaw : Option String)
    (now : Int) :
    (enqueueJob parse jid cmd mr pri timeout runRaw now).attempts = 0 := by
  unfold enqueueJob
  (repeat' split) <;> rfl

theorem enqueueJob_mr (parse : String → Option DT) (jid cmd : String)
    (mr pri : Int) (timeout : Option Int) (runRaw : Option String)
    (now : Int) :
    (enqueueJob parse jid cmd mr pri timeout runRaw now).max_retries = mr := by
  unfold enqueueJob
  (repeat' split) <;> rfl

theorem enqueueJob_time (parse : String → Option DT) (jid cmd : String)
    (mr pri : Int) (timeout : Option Int) (runRaw : Option String)
    (now : Int) :
    (enqueueJob parse jid cmd mr pri timeout runRaw now).created_at = now ∧
    (enqueueJob parse jid cmd mr pri timeout runRaw now).updated_at = now := by
  unfold enqueueJob
  constructor <;> (repeat' split) <;> rfl

theorem enqueueJob_state (parse : String → Option DT) (jid cmd : String)
    (mr pri : Int) (timeout : Option Int) (runRaw : Option String)
    (now : Int) :
    (enqueueJob parse jid cmd mr pri timeout runRaw now).state
        = JState.pending ∨
    (enqueueJob parse jid cmd mr pri timeout runRaw now).state
        = JState.scheduled := by
  unfold enqueueJob
  (repeat' split) <;> simp

theorem enqueueJob_stamps (parse : String → Option DT) (jid cmd : String)
    (mr pri : Int) (timeout : Option Int) (runRaw : Option String)
    (now : Int) :
    (enqueueJob parse jid cmd mr pri timeout runRaw now).completed_at
        = none ∧
    (enqueueJob parse jid cmd mr pri timeout runRaw now).cancelled_at
        = none ∧
    (enqueueJob parse jid cmd mr pri timeout runRaw now).dlq_at = none := by
  unfold enqueueJob
  refine ⟨?_, ?_, ?_⟩ <;> (repeat' split) <;> rfl

theorem runnable_state {j : Job} {now : Int} (h : runnable j now = true) :
    j.state = JState.pending ∨ j.state = JState.scheduled := by
  unfold runnable at h
  simp only [Bool.or_eq_true, Bool.and_eq_true, beq_iff_eq] at h
  rcases h with h1 | ⟨h1, _⟩
  · exact Or.inl h1
  · exact Or.inr h1

theorem mem_update_job {db : Db} {jid : String} {f : Job → Job} {t : Int}
    {j' : Job} (hj' : j' ∈ update_job db jid f t) :
    j' ∈ db ∨ ∃ j, lookupJob db jid = some j ∧
      j' = { f j with updated_at := t } := by
  unfold update_job at hj'
  cases hl : lookupJob db jid with
  | none =>
      rw [hl] at hj'
      exact Or.inl hj'
  | some j =>
      rw [hl] at hj'
      rcases mem_setJob hj' with h | h
      · exact Or.inr ⟨j, rfl, h⟩
      · exact Or.inl h

theorem ids_map_id_preserving (g : Job → Job) (hg : ∀ x, (g x).id = x.id)
    (db : Db) : (db.map g).map Job.id = db.map Job.id := by
  rw [List.map_map]
  exact List.map_congr_left (fun x _ => hg x)

theorem ids_setJob (db : Db) (j : Job) (h : (db.map Job.id).Nodup) :
    ((setJob db j).map Job.id).Nodup := by
  unfold setJob
  by_cases hany : db.any (fun x => x.id == j.id) = true
  · rw [if_pos hany]
    have heq : (db.map (fun x => if x.id == j.id then j else x)).map Job.id
        = db.map Job.id := by
      rw [List.map_map]
      refine List.map_congr_left (fun x _ => ?_)
      by_cases hxi : x.id = j.id <;> simp [hxi]
    rw [heq]
    exact h
  · rw [if_neg hany, List.map_append]
    rw [List.nodup_append]
    refine ⟨h, by simp, ?_⟩
    intro a ha hb
    simp only [List.map_cons, List.map_nil, List.mem_singleton] at hb
    subst hb
    obtain ⟨x, hx, hxi⟩ := List.mem_map.1 ha
    exact hany (List.any_eq_true.2 ⟨x, hx, by simp [hxi]⟩)

theorem promoteAll_ids (db : Db) (now : Int) :
    (promoteAll db now).map Job.id = db.map Job.id := by
  unfold promoteAll
  refine ids_map_id_preserving _ (fun x => ?_) db
  by_cases h : (x.state == JState.scheduled && runAtDue x now) = true <;>
    simp [h]

theorem ids_nodup_step (parse : String → Option DT) (bb : Int) (db : Db)
    (op : Op) (t : Int) (h : (db.map Job.id).Nodup) :
    ((step parse bb db op t).map Job.id).Nodup := by
  cases op with
  | enqueueOp jid cmd mr pri timeout runRaw =>
      exact ids_setJob db _ h
  | claimOp w =>
      simp only [step]
      cases hms : pySort claimKeyLE (candidatesOf db t) with
      | nil => simpa [get_next_job, hms] using h
      | cons c rest =>
          simp only [get_next_job, hms]
          refine ids_setJob _ _ ?_
          rw [promoteAll_ids]
          exact h
  | markCompletedOp jid out et =>
      simp only [step, mark_completed]
      unfold update_job
      cases hl : lookupJob db jid with
      | none => exact h
      | some j => exact ids_setJob db _ h
  | markFailedOp jid e =>
      simp only [step, mark_failed, get_job]
      cases hl : lookupJob db jid with
      | none => exact h
      | some j => exact ids_setJob db _ h
  | resetForRetryOp jid =>
      simp only [step, reset_for_retry]
      unfold update_job
      cases hl : lookupJob db jid with
      | none => exact h
      | some j => exact ids_setJob db _ h
  | retryJobOp jid =>
      simp only [step, retry_job, get_job]
      cases hl : lookupJob db jid with
      | none => exact h
      | some j =>
          dsimp only
          by_cases hs : j.state = JState.failed ∨ j.state = JState.dlq
          · rw [if_pos hs]
            unfold update_job
            cases hl2 : lookupJob db jid with
            | none => exact h
            | some j2 => exact ids_setJob db _ h
          · rw [if_neg hs]
            exact h
  | cancelJobOp jid =>
      simp only [step, cancel_job, get_job]
      cases hl : lookupJob db jid with
      | none => exact h
      | some j =>
          dsimp only
          by_cases hs : j.state = JState.pending ∨ j.state = JState.scheduled
          · rw [if_pos hs]
            unfold update_job
            cases hl2 : lookupJob db jid with
            | none => exact h
            | some j2 => exact ids_setJob db _ h
          · rw [if_neg hs]
            exact h
  | purgeOp =>
      simp only [step, purge_completed]
      exact ((List.filter_sublist db).map Job.id).nodup h

theorem ids_nodup_run (parse : String → Option DT) (bb : Int) (db : Db)
    (tr : List (Op × Int)) (h : (db.map Job.id).Nodup) :
    ((runTrace parse bb db tr).map Job.id).Nodup := by
  induction tr generalizing db with
  | nil => exact h
  | cons p rest ih =>
      exact ih (step parse bb db p.1 p.2) (ids_nodup_step parse bb db p.1 p.2 h)

theorem attemptsInv_step (parse : String → Option DT) (bb : Int) (db : Db)
    (op : Op) (t : Int) (hdb : ∀ j ∈ db, attemptsInv j)
    (hok : okWorkerOp db op = true) (hmr : okEnqueueMR op = true) :
    ∀ j' ∈ step parse bb db op t, attemptsInv j' := by
  intro j' hj'
  cases op with
  | enqueueOp jid cmd mr pri timeout runRaw =>
      simp only [step, enqueue] at hj'
      rcases mem_setJob hj' with heq | hmem
      · subst heq
        have hmr' : (1 : Int) ≤ mr := by
          simpa [okEnqueueMR] using hmr
        refine ⟨?_, ?_, ?_⟩
        · rw [enqueueJob_mr]
          exact hmr'
        · intro hdlq
          rcases enqueueJob_state parse jid cmd mr pri timeout runRaw t
            with hq | hq <;> rw [hq] at hdlq <;> simp at hdlq
        · intro _
          rw [enqueueJob_attempts, enqueueJob_mr]
          omega
      · exact hdb j' hmem
  | claimOp w =>
      simp only [step] at hj'
      cases hms : pySort claimKeyLE (candidatesOf db t) with
      | nil =>
          simp only [get_next_job, hms] at hj'
          exact hdb j' hj'
      | cons c rest =>
          simp only [get_next_job, hms] at hj'
          rcases mem_setJob hj' with heq | hmem
          · subst heq
            have hcmem : c ∈ candidatesOf db t :=
              (pySort_perm claimKeyLE (candidatesOf db t)).mem_iff.1
                (hms ▸ List.mem_cons_self c rest)
            obtain ⟨k, hkdb, hkr, hco⟩ := candidates_origin hcmem
            have hkInv := hdb k hkdb
            have hknd : k.state ≠ JState.dlq := by
              rcases runnable_state hkr with hq | hq <;> rw [hq] <;> simp
            have hlt := hkInv.2.2 hknd
            rcases hco with rfl | rfl
            · refine ⟨hkInv.1, ?_, fun _ => hlt⟩
              intro hdlq
              simp [claimedJob] at hdlq
            · refine ⟨hkInv.1, ?_, fun _ => hlt⟩
              intro hdlq
              simp [claimedJob] at hdlq
          · unfold promoteAll at hmem
            obtain ⟨y, hy, hyeq⟩ := List.mem_map.1 hmem
            have hyInv := hdb y hy
            by_cases hc : (y.state == JState.scheduled && runAtDue y t) = true
            · rw [if_pos hc] at hyeq
              subst hyeq
              have hc' : y.state = JState.scheduled ∧ runAtDue y t = true := by
                simpa [Bool.and_eq_true, beq_iff_eq] using hc
              have hynd : y.state ≠ JState.dlq := by
                rw [hc'.1]
                simp
              have hlt := hyInv.2.2 hynd
              refine ⟨hyInv.1, ?_, fun _ => hlt⟩
              intro hdlq
              simp at hdlq
            · rw [if_neg hc] at hyeq
              subst hyeq
              exact hyInv
  | markCompletedOp jid out et =>
      simp only [step, mark_completed] at hj'
      rcases mem_update_job hj' with hmem | ⟨j, hl, heq⟩
      · exact hdb j' hmem
      · subst heq
        have hok' : j.state = JState.running := by
          simp only [okWorkerOp, hl, beq_iff_eq] at hok
          exact hok
        have hInv := hdb j (List.mem_of_find?_eq_some hl)
        have hlt := hInv.2.2 (by rw [hok']; simp)
        refine ⟨hInv.1, ?_, fun _ => hlt⟩
        intro hdlq
        simp at hdlq
  | markFailedOp jid e =>
      simp only [step, mark_failed, get_job] at hj'
      cases hl : lookupJob db jid with
      | none =>
          rw [hl] at hj'
          exact hdb j' hj'
      | some j =>
          rw [hl] at hj'
          rcases mem_setJob hj' with heq | hmem
          · subst heq
            have hok' : j.state = JState.running := by
              simp only [okWorkerOp, hl, beq_iff_eq] at hok
              exact hok
            have hInv := hdb j (List.mem_of_find?_eq_some hl)
            have hlt := hInv.2.2 (by rw [hok']; simp)
            by_cases hc : j.max_retries ≤ (j.attempts : Int) + 1
            · have ha : (markFailedJob bb j e t).attempts = j.attempts + 1 := by
                simp [markFailedJob, hc]
              have hm : (markFailedJob bb j e t).max_retries
                  = j.max_retries := by
                simp [markFailedJob, hc]
              refine ⟨by rw [hm]; omega, ?_, ?_⟩
              · intro _
                rw [ha, hm]
                push_cast
                omega
              · intro hnd
                exfalso
                apply hnd
                simp [markFailedJob, hc]
            · have ha : (markFailedJob bb j e t).attempts = j.attempts + 1 := by
                simp [markFailedJob, hc]
              have hm : (markFailedJob bb j e t).max_retries
                  = j.max_retries := by
                simp [markFailedJob, hc]
              refine ⟨by rw [hm]; omega, ?_, ?_⟩
              · intro hdlq
                exfalso
                have : (markFailedJob bb j e t).state = JState.failed := by
                  simp [markFailedJob, hc]
                rw [this] at hdlq
                simp at hdlq
              · intro _
                rw [ha, hm]
                push_cast
                omega
          · exact hdb j' hmem
  | resetForRetryOp jid =>
      simp only [step, reset_for_retry] at hj'
      rcases mem_update_job hj' with hmem | ⟨j, hl, heq⟩
      · exact hdb j' hmem
      · subst heq
        have hok' : j.state = JState.failed := by
          simp only [okWorkerOp, hl, beq_iff_eq] at hok
          exact hok
        have hInv := hdb j (List.mem_of_find?_eq_some hl)
        have hlt := hInv.2.2 (by rw [hok']; simp)
        refine ⟨hInv.1, ?_, fun _ => hlt⟩
        intro hdlq
        simp at hdlq
  | retryJobOp jid =>
      simp only [step, retry_job, get_job] at hj'
      cases hl : lookupJob db jid with
      | none =>
          rw [hl] at hj'
          exact hdb j' hj'
      | some j =>
          rw [hl] at hj'
          dsimp only at hj'
          by_cases hs : j.state = JState.failed ∨ j.state = JState.dlq
          · rw [if_pos hs] at hj'
            rcases mem_update_job hj' with hmem | ⟨j2, hl2, heq⟩
            · exact hdb j' hmem
            · subst heq
              have hInv := hdb j2 (List.mem_of_find?_eq_some hl2)
              refine ⟨hInv.1, ?_, ?_⟩
              · intro hdlq
                simp at hdlq
              · intro _
                show ((0 : Nat) : Int) < j2.max_retries
                have h1 := hInv.1
                push_cast
                omega
          · rw [if_neg hs] at hj'
            exact hdb j' hj'
  | cancelJobOp jid =>
      simp only [step, cancel_job, get_job] at hj'
      cases hl : lookupJob db jid with
      | none =>
          rw [hl] at hj'
          exact hdb j' hj'
      | some j =>
          rw [hl] at hj'
          dsimp only at hj'
          by_cases hs : j.state = JState.pending ∨ j.state = JState.scheduled
          · rw [if_pos hs] at hj'
            rcases mem_update_job hj' with hmem | ⟨j2, hl2, heq⟩
            · exact hdb j' hmem
            · subst heq
              have hj2 : j2 = j := by
                rw [hl] at hl2
                exact (Option.some.inj hl2).symm
              subst hj2
              have hInv := hdb j2 (List.mem_of_find?_eq_some hl)
              have hnd : j2.state ≠ JState.dlq := by
                rcases hs with hq | hq <;> rw [hq] <;> simp
              have hlt := hInv.2.2 hnd
              refine ⟨hInv.1, ?_, fun _ => hlt⟩
              intro hdlq
              simp at hdlq
          · rw [if_neg hs] at hj'
            exact hdb j' hj'
  | purgeOp =>
      simp only [step, purge_completed] at hj'
      exact hdb j' (List.mem_filter.1 hj').1

theorem attemptsInv_run (parse : String → Option DT) (bb : Int) (db : Db)
    (tr : List (Op × Int)) (hdb : ∀ j ∈ db, attemptsInv j)
    (hw : workerTrace parse bb db tr = true) (hmr : mrTrace tr = true) :
    ∀ j ∈ runTrace parse bb db tr, attemptsInv j := by
  induction tr generalizing db with
  | nil => exact hdb
  | cons p rest ih =>
      obtain ⟨op, t⟩ := p
      simp only [workerTrace, Bool.and_eq_true] at hw
      simp only [mrTrace, List.all_cons, Bool.and_eq_true] at hmr
      exact ih (step parse bb db op t)
        (attemptsInv_step parse bb db op t hdb hw.1 hmr.1) hw.2 hmr.2

theorem eq_of_mem_ids_nodup {db : Db} (hnodup : (db.map Job.id).Nodup)
    {a b : Job} (ha : a ∈ db) (hb : b ∈ db) (hid : a.id = b.id) : a = b := by
  induction db with
  | nil => simp at ha
  | cons x xs ih =>
      simp only [List.map_cons, List.nodup_cons] at hnodup
      rcases List.mem_cons.1 ha with rfl | ha' <;>
        rcases List.mem_cons.1 hb with rfl | hb'
      · rfl
      · exfalso
        exact hnodup.1 (hid ▸ List.mem_map.2 ⟨b, hb', rfl⟩)
      · exfalso
        exact hnodup.1 (hid ▸ List.mem_map.2 ⟨a, ha', rfl⟩)
      · exact ih hnodup.2 ha' hb'

theorem lookupJob_mem_id {db : Db} {jid : String} {j : Job}
    (h : lookupJob db jid = some j) : j ∈ db ∧ j.id = jid :=
  ⟨List.mem_of_find?_eq_some h, lookupJob_id h⟩

theorem dlq_entry_step (parse : String → Option DT) (bb : Int) (db : Db)
    (op : Op) (t : Int) (hdb : ∀ j ∈ db, attemptsInv j)
    (hnodup : (db.map Job.id).Nodup)
    {jid : String} {j j' : Job}
    (hj : lookupJob db jid = some j) (hnd : j.state ≠ JState.dlq)
    (hj' : lookupJob (step parse bb db op t) jid = some j')
    (hd : j'.state = JState.dlq) :
    (∃ e, op = Op.markFailedOp jid e) ∧ j'.attempts = j.attempts + 1 ∧
      (j'.attempts : Int) = j'.max_retries := by
  cases op with
  | enqueueOp jid0 cmd mr pri timeout runRaw =>
      exfalso
      simp only [step, enqueue] at hj'
      rw [lookupJob_setJob] at hj'
      by_cases hq : jid = (enqueueJob parse jid0 cmd mr pri timeout
          runRaw t).id
      · rw [if_pos hq] at hj'
        have hje : j' = enqueueJob parse jid0 cmd mr pri timeout runRaw t :=
          (Option.some.inj hj').symm
        rcases enqueueJob_state parse jid0 cmd mr pri timeout runRaw t
          with hs | hs <;> rw [hje, hs] at hd <;> simp at hd
      · rw [if_neg hq, hj] at hj'
        exact hnd ((Option.some.inj hj').symm ▸ hd)
  | claimOp w =>
      exfalso
      simp only [step] at hj'
      cases hms : pySort claimKeyLE (candidatesOf db t) with
      | nil =>
          simp only [get_next_job, hms] at hj'
          rw [hj] at hj'
          exact hnd ((Option.some.inj hj').symm ▸ hd)
      | cons c rest =>
          simp only [get_next_job, hms] at hj'
          rw [lookupJob_setJob] at hj'
          by_cases hq : jid = (claimedJob c w t).id
          · rw [if_pos hq] at hj'
            have hje : j' = claimedJob c w t := (Option.some.inj hj').symm
            rw [hje] at hd
            simp [claimedJob] at hd
          · rw [if_neg hq] at hj'
            have hmap : lookupJob (promoteAll db t) jid =
                (lookupJob db jid).map (fun x =>
                  if x.state == JState.scheduled && runAtDue x t then
                    { x with state := JState.pending }
                  else x) := by
              unfold promoteAll
              refine lookupJob_map _ (fun x => ?_) db jid
              by_cases hx : (x.state == JState.scheduled && runAtDue x t)
                  = true <;> simp [hx]
            rw [hmap, hj] at hj'
            simp only [Option.map_some'] at hj'
            have hje := (Option.some.inj hj').symm
            by_cases hx : (j.state == JState.scheduled && runAtDue j t) = true
            · rw [if_pos hx] at hje
              rw [hje] at hd
              simp at hd
            · rw [if_neg hx] at hje
              exact hnd (hje ▸ hd)
  | markCompletedOp jid0 out et =>
      exfalso
      simp only [step, mark_completed] at hj'
      unfold update_job at hj'
      cases hl : lookupJob db jid0 with
      | none =>
          rw [hl] at hj'
          rw [hj] at hj'
          exact hnd ((Option.some.inj hj').symm ▸ hd)
      | some k =>
          rw [hl] at hj'
          rw [lookupJob_setJob] at hj'
          by_cases hq : jid = (Job.id k)
          · rw [if_pos hq] at hj'
            have hje := (Option.some.inj hj').symm
            rw [hje] at hd
            simp at hd
          · rw [if_neg hq] at hj'
            rw [hj] at hj'
            exact hnd ((Option.some.inj hj').symm ▸ hd)
  | markFailedOp jid0 e =>
      simp only [step, mark_failed, get_job] at hj'
      cases hl : lookupJob db jid0 with
      | none =>
          exfalso
          rw [hl] at hj'
          rw [hj] at hj'
          exact hnd ((Option.some.inj hj').symm ▸ hd)
      | some k =>
          rw [hl] at hj'
          rw [lookupJob_setJob] at hj'
          have hmfid : (markFailedJob bb k e t).id = k.id := by
            by_cases hc : k.max_retries ≤ (k.attempts : Int) + 1 <;>
              simp [markFailedJob, hc]
          by_cases hq : jid = (markFailedJob bb k e t).id
          · rw [if_pos hq] at hj'
            have hje : j' = markFailedJob bb k e t :=
              (Option.some.inj hj').symm
            have hkid : k.id = jid := by
              rw [hq, hmfid]
            have hkj : k = j := by
              have hk0 := lookupJob_mem_id hl
              have hj0 := lookupJob_mem_id hj
              exact eq_of_mem_ids_nodup hnodup hk0.1 hj0.1
                (by rw [hkid, hj0.2])
            have hjid0 : jid0 = jid :=
              ((lookupJob_mem_id hl).2).symm.trans hkid
            have hInv := hdb j ((lookupJob_mem_id hj).1)
            have hlt := hInv.2.2 hnd
            by_cases hc : k.max_retries ≤ (k.attempts : Int) + 1
            · have ha : (markFailedJob bb k e t).attempts
                  = k.attempts + 1 := by simp [markFailedJob, hc]
              have hm : (markFailedJob bb k e t).max_retries
                  = k.max_retries := by simp [markFailedJob, hc]
              refine ⟨⟨e, by rw [hjid0]⟩, ?_, ?_⟩
              · rw [hje, ha, hkj]
              · rw [hje, ha, hm]
                rw [hkj] at hc ⊢
                push_cast
                omega
            · exfalso
              have hst : (markFailedJob bb k e t).state = JState.failed := by
                simp [markFailedJob, hc]
              rw [hje, hst] at hd
              simp at hd
          · exfalso
            rw [if_neg hq] at hj'
            rw [hj] at hj'
            exact hnd ((Option.some.inj hj').symm ▸ hd)
  | resetForRetryOp jid0 =>
      exfalso
      simp only [step, reset_for_retry] at hj'
      unfold update_job at hj'
      cases hl : lookupJob db jid0 with
      | none =>
          rw [hl] at hj'
          rw [hj] at hj'
          exact hnd ((Option.some.inj hj').symm ▸ hd)
      | some k =>
          rw [hl] at hj'
          rw [lookupJob_setJob] at hj'
          by_cases hq : jid = (Job.id k)
          · rw [if_pos hq] at hj'
            have hje := (Option.some.inj hj').symm
            rw [hje] at hd
            simp at hd
          · rw [if_neg hq] at hj'
            rw [hj] at hj'
            exact hnd ((Option.some.inj hj').symm ▸ hd)
  | retryJobOp jid0 =>
      exfalso
      simp only [step, retry_job, get_job] at hj'
      cases hl : lookupJob db jid0 with
      | none =>
          rw [hl] at hj'
          rw [hj] at hj'
          exact hnd ((Option.some.inj hj').symm ▸ hd)
      | some k =>
          rw [hl] at hj'
          dsimp only at hj'
          by_cases hs : k.state = JState.failed ∨ k.state = JState.dlq
          · rw [if_pos hs] at hj'
            unfold update_job at hj'
            cases hl2 : lookupJob db jid0 with
            | none =>
                rw [hl2] at hj'
                rw [hj] at hj'
                exact hnd ((Option.some.inj hj').symm ▸ hd)
            | some k2 =>
                rw [hl2] at hj'
                rw [lookupJob_setJob] at hj'
                by_cases hq : jid = (Job.id k2)
                · rw [if_pos hq] at hj'
                  have hje := (Option.some.inj hj').symm
                  rw [hje] at hd
                  simp at hd
                · rw [if_neg hq] at hj'
                  rw [hj] at hj'
                  exact hnd ((Option.some.inj hj').symm ▸ hd)
          · rw [if_neg hs] at hj'
            rw [hj] at hj'
            exact hnd ((Option.some.inj hj').symm ▸ hd)
  | cancelJobOp jid0 =>
      exfalso
      simp only [step, cancel_job, get_job] at hj'
      cases hl : lookupJob db jid0 with
      | none =>
          rw [hl] at hj'
          rw [hj] at hj'
          exact hnd ((Option.some.inj hj').symm ▸ hd)
      | some k =>
          rw [hl] at hj'
          dsimp only at hj'
          by_cases hs : k.state = JState.pending ∨ k.state = JState.scheduled
          · rw [if_pos hs] at hj'
            unfold update_job at hj'
            cases hl2 : lookupJob db jid0 with
            | none =>
                rw [hl2] at hj'
                rw [hj] at hj'
                exact hnd ((Option.some.inj hj').symm ▸ hd)
            | some k2 =>
                rw [hl2] at hj'
                rw [lookupJob_setJob] at hj'
                by_cases hq : jid = (Job.id k2)
                · rw [if_pos hq] at hj'
                  have hje := (Option.some.inj hj').symm
                  rw [hje] at hd
                  simp at hd
                · rw [if_neg hq] at hj'
                  rw [hj] at hj'
                  exact hnd ((Option.some.inj hj').symm ▸ hd)
          · rw [if_neg hs] at hj'
            rw [hj] at hj'
            exact hnd ((Option.some.inj hj').symm ▸ hd)
  | purgeOp =>
      exfalso
      simp only [step, purge_completed] at hj'
      have hmem := lookupJob_mem_id hj'
      have hin : j' ∈ db := (List.mem_filter.1 hmem.1).1
      have hjj : j' = j :=
        eq_of_mem_ids_nodup hnodup hin (lookupJob_mem_id hj).1
          (by rw [hmem.2, lookupJob_id hj])
      exact hnd (hjj ▸ hd)

theorem workerTrace_append (parse : String → Option DT) (bb : Int) (db : Db)
    (pre : List (Op × Int)) (x : Op × Int) (suf : List (Op × Int))
    (h : workerTrace parse bb db (pre ++ x :: suf) = true) :
    workerTrace parse bb db pre = true ∧
      okWorkerOp (runTrace parse bb db pre) x.1 = true := by
  induction pre generalizing db with
  | nil =>
      obtain ⟨op, t⟩ := x
      simp only [List.nil_append, workerTrace, Bool.and_eq_true] at h
      exact ⟨rfl, h.1⟩
  | cons p rest ih =>
      obtain ⟨op, t⟩ := p
      simp only [List.cons_append, workerTrace, Bool.and_eq_true] at h ⊢
      obtain ⟨h1, h2⟩ := h
      obtain ⟨h3, h4⟩ := ih (step parse bb db op t) h2
      exact ⟨⟨h1, h3⟩, h4⟩

theorem mrTrace_of_append (pre suf : List (Op × Int))
    (h : mrTrace (pre ++ suf) = true) : mrTrace pre = true := by
  simp only [mrTrace, List.all_append, Bool.and_eq_true] at h
  exact h.1

/-- C4 (amended): starting from an empty store, for every operation
sequence in which every `enqueue` uses `max_retries ≥ 1` and — as the
Worker guarantees — `mark_failed`/`mark_completed` are only applied to the
claimed (`running`) job and `reset_for_retry` only to `failed` jobs,
`0 ≤ attempts ≤ max_retries` holds for every job at all times, and a job
enters `dlq` exactly through a `mark_failed` that raises its attempts to
exactly `max_retries`.  (Without the worker discipline the bound fails: see
the counterexample, where a second `mark_failed` on a DLQ'd job pushes
`attempts` past `max_retries`.) -/
theorem c4_attempts_amended (parse : String → Option DT) (bb : Int)
    (tr : List (Op × Int)) (hw : workerTrace parse bb [] tr = true)
    (hmr : mrTrace tr = true) :
    (∀ j ∈ runTrace parse bb [] tr,
      (0 : Int) ≤ (j.attempts : Int) ∧ (j.attempts : Int) ≤ j.max_retries ∧
      (j.state = JState.dlq → (j.attempts : Int) = j.max_retries) ∧
      (j.state ≠ JState.dlq → (j.attempts : Int) < j.max_retries)) ∧
    (∀ pre op t suf, tr = pre ++ (op, t) :: suf →
      ∀ jid j j', lookupJob (runTrace parse bb [] pre) jid = some j →
        j.state ≠ JState.dlq →
        lookupJob (step parse bb (runTrace parse bb [] pre) op t) jid
          = some j' →
        j'.state = JState.dlq →
        (∃ e, op = Op.markFailedOp jid e) ∧ j'.attempts = j.attempts + 1 ∧
          (j'.attempts : Int) = j'.max_retries) := by
  constructor
  · intro j hj
    have hInv := attemptsInv_run parse bb [] tr
      (by intro j h; simp at h) hw hmr j hj
    refine ⟨by exact_mod_cast Int.ofNat_nonneg j.attempts, ?_,
      hInv.2.1, hInv.2.2⟩
    by_cases hdlq : j.state = JState.dlq
    · exact le_of_eq (hInv.2.1 hdlq)
    · exact le_of_lt (hInv.2.2 hdlq)
  · intro pre op t suf heq jid j j' hj hnd hj' hd
    subst heq
    obtain ⟨hwpre, hok⟩ := workerTrace_append parse bb [] pre (op, t) suf hw
    have hmrpre : mrTrace pre = true := mrTrace_of_append pre _ hmr
    have hdbInv := attemptsInv_run parse bb [] pre
      (by intro j h; simp at h) hwpre hmrpre
    have hnodup := ids_nodup_run parse bb [] pre (by simp)
    exact dlq_entry_step parse bb _ op t hdbInv hnodup hj hnd hj' hd

/-- Witness for C4's amended statement on a concrete worker-disciplined
trace, instantiated at the one job the trace leaves in the store. -/
theorem c4_attempts_amended_witness :
    j4w ∈ runTrace parseFail 2 [] tr4w ∧
      ((0 : Int) ≤ (j4w.attempts : Int) ∧
        (j4w.attempts : Int) ≤ j4w.max_retries ∧
        (j4w.state = JState.dlq → (j4w.attempts : Int) = j4w.max_retries) ∧
        (j4w.state ≠ JState.dlq →
          (j4w.attempts : Int) < j4w.max_retries)) :=
  ⟨by decide,
    (c4_attempts_amended parseFail 2 tr4w rfl rfl).1 j4w (by decide)⟩

theorem stampInv_not_completed {j : Job} (h : stampInv j)
    (hs : j.state ≠ JState.completed) : j.completed_at.isSome = false := by
  have h1 := h.1
  rw [Bool.eq_false_iff]
  intro hsome
  exact hs (h1.mp hsome)

theorem stampInv_not_cancelled {j : Job} (h : stampInv j)
    (hs : j.state ≠ JState.cancelled) : j.cancelled_at.isSome = false := by
  have h1 := h.2.1
  rw [Bool.eq_false_iff]
  intro hsome
  exact hs (h1.mp hsome)

theorem stampInv_step (parse : String → Option DT) (bb : Int) (db : Db)
    (op : Op) (t : Int) (hdb : ∀ j ∈ db, stampInv j)
    (hok : okWorkerOp db op = true) :
    ∀ j' ∈ step parse bb db op t, stampInv j' := by
  intro j' hj'
  cases op with
  | enqueueOp jid cmd mr pri timeout runRaw =>
      simp only [step, enqueue] at hj'
      rcases mem_setJob hj' with heq | hmem
      · subst heq
        obtain ⟨h1, h2, h3⟩ :=
          enqueueJob_stamps parse jid cmd mr pri timeout runRaw t
        rcases enqueueJob_state parse jid cmd mr pri timeout runRaw t
          with hs | hs <;>
          exact ⟨by rw [h1, hs]; simp, by rw [h2, hs]; simp,
            by rw [hs]; simp⟩
      · exact hdb j' hmem
  | claimOp w =>
      simp only [step] at hj'
      cases hms : pySort claimKeyLE (candidatesOf db t) with
      | nil =>
          simp only [get_next_job, hms] at hj'
          exact hdb j' hj'
      | cons c rest =>
          simp only [get_next_job, hms] at hj'
          rcases mem_setJob hj' with heq | hmem
          · subst heq
            have hcmem : c ∈ candidatesOf db t :=
              (pySort_perm claimKeyLE (candidatesOf db t)).mem_iff.1
                (hms ▸ List.mem_cons_self c rest)
            obtain ⟨k, hkdb, hkr, hco⟩ := candidates_origin hcmem
            have hkInv := hdb k hkdb
            have hcf : k.completed_at.isSome = false := by
              refine stampInv_not_completed hkInv ?_
              rcases runnable_state hkr with hq | hq <;> rw [hq] <;> simp
            have hcc : k.cancelled_at.isSome = false := by
              refine stampInv_not_cancelled hkInv ?_
              rcases runnable_state hkr with hq | hq <;> rw [hq] <;> simp
            rcases hco with rfl | rfl <;>
              exact ⟨by simp [claimedJob, hcf], by simp [claimedJob, hcc],
                by simp [claimedJob]⟩
          · unfold promoteAll at hmem
            obtain ⟨y, hy, hyeq⟩ := List.mem_map.1 hmem
            have hyInv := hdb y hy
            by_cases hc : (y.state == JState.scheduled && runAtDue y t) = true
            · rw [if_pos hc] at hyeq
              subst hyeq
              have hc' : y.state = JState.scheduled := by
                have := hc
                simp only [Bool.and_eq_true, beq_iff_eq] at this
                exact this.1
              have hcf : y.completed_at.isSome = false :=
                stampInv_not_completed hyInv (by rw [hc']; simp)
              have hcc : y.cancelled_at.isSome = false :=
                stampInv_not_cancelled hyInv (by rw [hc']; simp)
              exact ⟨by simp [hcf], by simp [hcc], by simp⟩
            · rw [if_neg hc] at hyeq
              subst hyeq
              exact hyInv
  | markCompletedOp jid out et =>
      simp only [step, mark_completed] at hj'
      rcases mem_update_job hj' with hmem | ⟨j, hl, heq⟩
      · exact hdb j' hmem
      · subst heq
        have hok' : j.state = JState.running := by
          simp only [okWorkerOp, hl, beq_iff_eq] at hok
          exact hok
        have hInv := hdb j (List.mem_of_find?_eq_some hl)
        have hcc : j.cancelled_at.isSome = false :=
          stampInv_not_cancelled hInv (by rw [hok']; simp)
        exact ⟨by simp, by simp [hcc], by simp⟩
  | markFailedOp jid e =>
      simp only [step, mark_failed, get_job] at hj'
      cases hl : lookupJob db jid with
      | none =>
          rw [hl] at hj'
          exact hdb j' hj'
      | some j =>
          rw [hl] at hj'
          rcases mem_setJob hj' with heq | hmem
          · subst heq
            have hok' : j.state = JState.running := by
              simp only [okWorkerOp, hl, beq_iff_eq] at hok
              exact hok
            have hInv := hdb j (List.mem_of_find?_eq_some hl)
            have hcf : j.completed_at.isSome = false :=
              stampInv_not_completed hInv (by rw [hok']; simp)
            have hcc : j.cancelled_at.isSome = false :=
              stampInv_not_cancelled hInv (by rw [hok']; simp)
            by_cases hc : j.max_retries ≤ (j.attempts : Int) + 1
            · exact ⟨by simp [markFailedJob, hc, hcf],
                by simp [markFailedJob, hc, hcc],
                by simp [markFailedJob, hc]⟩
            · exact ⟨by simp [markFailedJob, hc, hcf],
                by simp [markFailedJob, hc, hcc],
                by simp [markFailedJob, hc]⟩
          · exact hdb j' hmem
  | resetForRetryOp jid =>
      simp only [step, reset_for_retry] at hj'
      rcases mem_update_job hj' with hmem | ⟨j, hl, heq⟩
      · exact hdb j' hmem
      · subst heq
        have hok' : j.state = JState.failed := by
          simp only [okWorkerOp, hl, beq_iff_eq] at hok
          exact hok
        have hInv := hdb j (List.mem_of_find?_eq_some hl)
        have hcf : j.completed_at.isSome = false :=
          stampInv_not_completed hInv (by rw [hok']; simp)
        have hcc : j.cancelled_at.isSome = false :=
          stampInv_not_cancelled hInv (by rw [hok']; simp)
        exact ⟨by simp [hcf], by simp [hcc], by simp⟩
  | retryJobOp jid =>
      simp only [step, retry_job, get_job] at hj'
      cases hl : lookupJob db jid with
      | none =>
          rw [hl] at hj'
          exact hdb j' hj'
      | some j =>
          rw [hl] at hj'
          dsimp only at hj'
          by_cases hs : j.state = JState.failed ∨ j.state = JState.dlq
          · rw [if_pos hs] at hj'
            rcases mem_update_job hj' with hmem | ⟨j2, hl2, heq⟩
            · exact hdb j' hmem
            · subst heq
              have hInv := hdb j2 (List.mem_of_find?_eq_some hl2)
              have hj2 : j2 = j := by
                rw [hl] at hl2
                exact (Option.some.inj hl2).symm
              have hcf : j2.completed_at.isSome = false := by
                refine stampInv_not_completed hInv ?_
                rw [hj2]
                rcases hs with hq | hq <;> rw [hq] <;> simp
              have hcc : j2.cancelled_at.isSome = false := by
                refine stampInv_not_cancelled hInv ?_
                rw [hj2]
                rcases hs with hq | hq <;> rw [hq] <;> simp
              exact ⟨by simp [hcf], by simp [hcc], by simp⟩
          · rw [if_neg hs] at hj'
            exact hdb j' hj'
  | cancelJobOp jid =>
      simp only [step, cancel_job, get_job] at hj'
      cases hl : lookupJob db jid with
      | none =>
          rw [hl] at hj'
          exact hdb j' hj'
      | some j =>
          rw [hl] at hj'
          dsimp only at hj'
          by_cases hs : j.state = JState.pending ∨ j.state = JState.scheduled
          · rw [if_pos hs] at hj'
            rcases mem_update_job hj' with hmem | ⟨j2, hl2, heq⟩
            · exact hdb j' hmem
            · subst heq
              have hInv := hdb j2 (List.mem_of_find?_eq_some hl2)
              have hj2 : j2 = j := by
                rw [hl] at hl2
                exact (Option.some.inj hl2).symm
              have hcf : j2.completed_at.isSome = false := by
                refine stampInv_not_completed hInv ?_
                rw [hj2]
                rcases hs with hq | hq <;> rw [hq] <;> simp
              exact ⟨by simp [hcf], by simp, by simp⟩
          · rw [if_neg hs] at hj'
            exact hdb j' hj'
  | purgeOp =>
      simp only [step, purge_completed] at hj'
      exact hdb j' (List.mem_filter.1 hj').1

/-- C6 (amended): starting from an empty store, under the Worker's
discipline (`mark_failed`/`mark_completed` only on the claimed `running`
job, `reset_for_retry` only on `failed` jobs), `completed_at` is set iff
the state is `completed` and `cancelled_at` iff `cancelled`; for `dlq_at`
only one direction holds: every `dlq` job carries a `dlq_at`, but
`retry_job` does not clear it, so a job reset from `dlq` to `pending`
retains its stale `dlq_at`. -/
theorem c6_stamps_amended (parse : String → Option DT) (bb : Int)
    (tr : List (Op × Int)) (hw : workerTrace parse bb [] tr = true) :
    ∀ j ∈ runTrace parse bb [] tr,
      (j.completed_at.isSome ↔ j.state = JState.completed) ∧
      (j.cancelled_at.isSome ↔ j.state = JState.cancelled) ∧
      (j.state = JState.dlq → j.dlq_at.isSome = true) := by
  have main : ∀ db tr2, (∀ j ∈ db, stampInv j) →
      workerTrace parse bb db tr2 = true →
      ∀ j ∈ runTrace parse bb db tr2, stampInv j := by
    intro db tr2
    induction tr2 generalizing db with
    | nil => intro hdb _; exact hdb
    | cons p rest ih =>
        intro hdb hw2
        obtain ⟨op, t⟩ := p
        simp only [workerTrace, Bool.and_eq_true] at hw2
        exact ih (step parse bb db op t)
          (stampInv_step parse bb db op t hdb hw2.1) hw2.2
  exact main [] tr (by intro j h; simp at h) hw

/-- Witness for C6's amended statement on a concrete worker-disciplined
trace that exercises the retry-from-DLQ path, instantiated at the one job
the trace leaves in the store. -/
theorem c6_stamps_amended_witness :
    j6w ∈ runTrace parseFail 2 [] tr6w ∧
      ((j6w.completed_at.isSome ↔ j6w.state = JState.completed) ∧
        (j6w.cancelled_at.isSome ↔ j6w.state = JState.cancelled) ∧
        (j6w.state = JState.dlq → j6w.dlq_at.isSome = true)) :=
  ⟨by decide, c6_stamps_amended parseFail 2 tr6w rfl j6w (by decide)⟩

theorem markFailedJob_updated (bb : Int) (k : Job) (e : String) (t : Int) :
    (markFailedJob bb k e t).updated_at = t := by
  by_cases hc : k.max_retries ≤ (k.attempts : Int) + 1 <;>
    simp [markFailedJob, hc]

theorem markFailedJob_created (bb : Int) (k : Job) (e : String) (t : Int) :
    (markFailedJob bb k e t).created_at = k.created_at := by
  by_cases hc : k.max_retries ≤ (k.attempts : Int) + 1 <;>
    simp [markFailedJob, hc]

theorem timeInv_step (parse : String → Option DT) (bb : Int) (db : Db)
    (op : Op) {t t' : Int} (hinv : timeInv t db) (ht : t ≤ t') :
    timeInv t' (step parse bb db op t') := by
  intro j' hj'
  cases op with
  | enqueueOp jid cmd mr pri timeout runRaw =>
      simp only [step, enqueue] at hj'
      rcases mem_setJob hj' with heq | hmem
      · subst heq
        obtain ⟨h1, h2⟩ := enqueueJob_time parse jid cmd mr pri timeout
          runRaw t'
        rw [h1, h2]
        exact ⟨le_refl _, le_refl _⟩
      · obtain ⟨ha, hb⟩ := hinv j' hmem
        exact ⟨ha, le_trans hb ht⟩
  | claimOp w =>
      simp only [step] at hj'
      cases hms : pySort claimKeyLE (candidatesOf db t') with
      | nil =>
          simp only [get_next_job, hms] at hj'
          obtain ⟨ha, hb⟩ := hinv j' hj'
          exact ⟨ha, le_trans hb ht⟩
      | cons c rest =>
          simp only [get_next_job, hms] at hj'
          rcases mem_setJob hj' with heq | hmem
          · subst heq
            have hcmem : c ∈ candidatesOf db t' :=
              (pySort_perm claimKeyLE (candidatesOf db t')).mem_iff.1
                (hms ▸ List.mem_cons_self c rest)
            obtain ⟨k, hkdb, _, hco⟩ := candidates_origin hcmem
            obtain ⟨ha, hb⟩ := hinv k hkdb
            rcases hco with rfl | rfl <;>
              exact ⟨ha, le_trans hb ht⟩
          · unfold promoteAll at hmem
            obtain ⟨y, hy, hyeq⟩ := List.mem_map.1 hmem
            obtain ⟨ha, hb⟩ := hinv y hy
            by_cases hc : (y.state == JState.scheduled && runAtDue y t')
                = true
            · rw [if_pos hc] at hyeq
              subst hyeq
              exact ⟨ha, le_trans hb ht⟩
            · rw [if_neg hc] at hyeq
              subst hyeq
              exact ⟨ha, le_trans hb ht⟩
  | markCompletedOp jid out et =>
      simp only [step, mark_completed] at hj'
      rcases mem_update_job hj' with hmem | ⟨j, hl, heq⟩
      · obtain ⟨ha, hb⟩ := hinv j' hmem
        exact ⟨ha, le_trans hb ht⟩
      · subst heq
        obtain ⟨ha, hb⟩ := hinv j (List.mem_of_find?_eq_some hl)
        exact ⟨le_trans ha (le_trans hb ht), le_refl _⟩
  | markFailedOp jid e =>
      simp only [step, mark_failed, get_job] at hj'
      cases hl : lookupJob db jid with
      | none =>
          rw [hl] at hj'
          obtain ⟨ha, hb⟩ := hinv j' hj'
          exact ⟨ha, le_trans hb ht⟩
      | some k =>
          rw [hl] at hj'
          rcases mem_setJob hj' with heq | hmem
          · subst heq
            obtain ⟨ha, hb⟩ := hinv k (List.mem_of_find?_eq_some hl)
            rw [markFailedJob_updated, markFailedJob_created]
            exact ⟨le_trans ha (le_trans hb ht), le_refl _⟩
          · obtain ⟨ha, hb⟩ := hinv j' hmem
            exact ⟨ha, le_trans hb ht⟩
  | resetForRetryOp jid =>
      simp only [step, reset_for_retry] at hj'
      rcases mem_update_job hj' with hmem | ⟨j, hl, heq⟩
      · obtain ⟨ha, hb⟩ := hinv j' hmem
        exact ⟨ha, le_trans hb ht⟩
      · subst heq
        obtain ⟨ha, hb⟩ := hinv j (List.mem_of_find?_eq_some hl)
        exact ⟨le_trans ha (le_trans hb ht), le_refl _⟩
  | retryJobOp jid =>
      simp only [step, retry_job, get_job] at hj'
      cases hl : lookupJob db jid with
      | none =>
          rw [hl] at hj'
          obtain ⟨ha, hb⟩ := hinv j' hj'
          exact ⟨ha, le_trans hb ht⟩
      | some k =>
          rw [hl] at hj'
          dsimp only at hj'
          by_cases hs : k.state = JState.failed ∨ k.state = JState.dlq
          · rw [if_pos hs] at hj'
            rcases mem_update_job hj' with hmem | ⟨j, hl2, heq⟩
            · obtain ⟨ha, hb⟩ := hinv j' hmem
              exact ⟨ha, le_trans hb ht⟩
            · subst heq
              obtain ⟨ha, hb⟩ := hinv j (List.mem_of_find?_eq_some hl2)
              exact ⟨le_trans ha (le_trans hb ht), le_refl _⟩
          · rw [if_neg hs] at hj'
            obtain ⟨ha, hb⟩ := hinv j' hj'
            exact ⟨ha, le_trans hb ht⟩
  | cancelJobOp jid =>
      simp only [step, cancel_job, get_job] at hj'
      cases hl : lookupJob db jid with
      | none =>
          rw [hl] at hj'
          obtain ⟨ha, hb⟩ := hinv j' hj'
          exact ⟨ha, le_trans hb ht⟩
      | some k =>
          rw [hl] at hj'
          dsimp only at hj'
          by_cases hs : k.state = JState.pending ∨ k.state = JState.scheduled
          · rw [if_pos hs] at hj'
            rcases mem_update_job hj' with hmem | ⟨j, hl2, heq⟩
            · obtain ⟨ha, hb⟩ := hinv j' hmem
              exact ⟨ha, le_trans hb ht⟩
            · subst heq
              obtain ⟨ha, hb⟩ := hinv j (List.mem_of_find?_eq_some hl2)
              exact ⟨le_trans ha (le_trans hb ht), le_refl _⟩
          · rw [if_neg hs] at hj'
            obtain ⟨ha, hb⟩ := hinv j' hj'
            exact ⟨ha, le_trans hb ht⟩
  | purgeOp =>
      simp only [step, purge_completed] at hj'
      obtain ⟨ha, hb⟩ := hinv j' (List.mem_filter.1 hj').1
      exact ⟨ha, le_trans hb ht⟩

theorem timesMono_append (t0 : Int) (pre : List (Op × Int)) (x : Op × Int)
    (suf : List (Op × Int)) (h : timesMono t0 (pre ++ x :: suf) = true) :
    timesMono t0 pre = true ∧ endTime t0 pre ≤ x.2 := by
  induction pre generalizing t0 with
  | nil =>
      obtain ⟨op, t⟩ := x
      simp only [List.nil_append, timesMono, Bool.and_eq_true,
        decide_eq_true_eq] at h
      exact ⟨rfl, h.1⟩
  | cons p rest ih =>
      obtain ⟨op2, t2⟩ := p
      simp only [List.cons_append, timesMono, Bool.and_eq_true,
        decide_eq_true_eq] at h ⊢
      obtain ⟨h1, h2⟩ := h
      obtain ⟨h3, h4⟩ := ih t2 h2
      exact ⟨⟨h1, h3⟩, h4⟩

theorem timeInv_run (parse : String → Option DT) (bb : Int)
    (tr : List (Op × Int)) (t0 : Int) (db : Db) (h : timeInv t0 db)
    (hm : timesMono t0 tr = true) :
    timeInv (endTime t0 tr) (runTrace parse bb db tr) := by
  induction tr generalizing t0 db with
  | nil => exact h
  | cons p rest ih =>
      obtain ⟨op, t⟩ := p
      simp only [timesMono, Bool.and_eq_true, decide_eq_true_eq] at hm
      exact ih t (step parse bb db op t)
        (timeInv_step parse bb db op h hm.1) hm.2

theorem updated_step_mono (parse : String → Option DT) (bb : Int) (db : Db)
    (op : Op) {t t' : Int} (hinv : timeInv t db) (ht : t ≤ t')
    (hnodup : (db.map Job.id).Nodup) {jid : String} {j j' : Job}
    (hj : lookupJob db jid = some j)
    (hj' : lookupJob (step parse bb db op t') jid = some j') :
    j.updated_at ≤ j'.updated_at := by
  have hjmem := lookupJob_mem_id hj
  have hjbound := (hinv j hjmem.1).2
  cases op with
  | enqueueOp jid0 cmd mr pri timeout runRaw =>
      simp only [step, enqueue] at hj'
      rw [lookupJob_setJob] at hj'
      by_cases hq : jid = (enqueueJob parse jid0 cmd mr pri timeout
          runRaw t').id
      · rw [if_pos hq] at hj'
        rw [← Option.some.inj hj',
          (enqueueJob_time parse jid0 cmd mr pri timeout runRaw t').2]
        exact le_trans hjbound ht
      · rw [if_neg hq, hj] at hj'
        rw [← Option.some.inj hj']
  | claimOp w =>
      simp only [step] at hj'
      cases hms : pySort claimKeyLE (candidatesOf db t') with
      | nil =>
          simp only [get_next_job, hms] at hj'
          rw [hj] at hj'
          rw [← Option.some.inj hj']
      | cons c rest =>
          simp only [get_next_job, hms] at hj'
          rw [lookupJob_setJob] at hj'
          by_cases hq : jid = (claimedJob c w t').id
          · rw [if_pos hq] at hj'
            have hje : j' = claimedJob c w t' := (Option.some.inj hj').symm
            have hcmem : c ∈ candidatesOf db t' :=
              (pySort_perm claimKeyLE (candidatesOf db t')).mem_iff.1
                (hms ▸ List.mem_cons_self c rest)
            obtain ⟨k, hkdb, _, hco⟩ := candidates_origin hcmem
            have hkid : k.id = jid := by
              rcases hco with rfl | rfl <;> exact hq.symm
            have hkj : k = j :=
              eq_of_mem_ids_nodup hnodup hkdb hjmem.1
                (by rw [hkid, hjmem.2])
            have hup : j'.updated_at = k.updated_at := by
              rcases hco with rfl | rfl <;> rw [hje] <;> rfl
            rw [hup, hkj]
          · rw [if_neg hq] at hj'
            have hmap : lookupJob (promoteAll db t') jid =
                (lookupJob db jid).map (fun x =>
                  if x.state == JState.scheduled && runAtDue x t' then
                    { x with state := JState.pending }
                  else x) := by
              unfold promoteAll
              refine lookupJob_map _ (fun x => ?_) db jid
              by_cases hx : (x.state == JState.scheduled && runAtDue x t')
                  = true <;> simp [hx]
            rw [hmap, hj] at hj'
            simp only [Option.map_some'] at hj'
            have hje := (Option.some.inj hj').symm
            by_cases hx : (j.state == JState.scheduled && runAtDue j t')
                = true
            · rw [if_pos hx] at hje
              rw [hje]
            · rw [if_neg hx] at hje
              rw [hje]
  | markCompletedOp jid0 out et =>
      simp only [step, mark_completed] at hj'
      unfold update_job at hj'
      cases hl : lookupJob db jid0 with
      | none =>
          rw [hl, hj] at hj'
          rw [← Option.some.inj hj']
      | some k =>
          rw [hl] at hj'
          rw [lookupJob_setJob] at hj'
          by_cases hq : jid = (Job.id k)
          · rw [if_pos hq] at hj'
            rw [← Option.some.inj hj']
            exact le_trans hjbound ht
          · rw [if_neg hq, hj] at hj'
            rw [← Option.some.inj hj']
  | markFailedOp jid0 e =>
      simp only [step, mark_failed, get_job] at hj'
      cases hl : lookupJob db jid0 with
      | none =>
          rw [hl, hj] at hj'
          rw [← Option.some.inj hj']
      | some k =>
          rw [hl] at hj'
          rw [lookupJob_setJob] at hj'
          by_cases hq : jid = (markFailedJob bb k e t').id
          · rw [if_pos hq] at hj'
            rw [← Option.some.inj hj', markFailedJob_updated]
            exact le_trans hjbound ht
          · rw [if_neg hq, hj] at hj'
            rw [← Option.some.inj hj']
  | resetForRetryOp jid0 =>
      simp only [step, reset_for_retry] at hj'
      unfold update_job at hj'
      cases hl : lookupJob db jid0 with
      | none =>
          rw [hl, hj] at hj'
          rw [← Option.some.inj hj']
      | some k =>
          rw [hl] at hj'
          rw [lookupJob_setJob] at hj'
          by_cases hq : jid = (Job.id k)
          · rw [if_pos hq] at hj'
            rw [← Option.some.inj hj']
            exact le_trans hjbound ht
          · rw [if_neg hq, hj] at hj'
            rw [← Option.some.inj hj']
  | retryJobOp jid0 =>
      simp only [step, retry_job, get_job] at hj'
      cases hl : lookupJob db jid0 with
      | none =>
          rw [hl, hj] at hj'
          rw [← Option.some.inj hj']
      | some k =>
          rw [hl] at hj'
          dsimp only at hj'
          by_cases hs : k.state = JState.failed ∨ k.state = JState.dlq
          · rw [if_pos hs] at hj'
            unfold update_job at hj'
            cases hl2 : lookupJob db jid0 with
            | none =>
                rw [hl2, hj] at hj'
                rw [← Option.some.inj hj']
            | some k2 =>
                rw [hl2] at hj'
                rw [lookupJob_setJob] at hj'
                by_cases hq : jid = (Job.id k2)
                · rw [if_pos hq] at hj'
                  rw [← Option.some.inj hj']
                  exact le_trans hjbound ht
                · rw [if_neg hq, hj] at hj'
                  rw [← Option.some.inj hj']
          · rw [if_neg hs] at hj'
            rw [hj] at hj'
            rw [← Option.some.inj hj']
  | cancelJobOp jid0 =>
      simp only [step, cancel_job, get_job] at hj'
      cases hl : lookupJob db jid0 with
      | none =>
          rw [hl, hj] at hj'
          rw [← Option.some.inj hj']
      | some k =>
          rw [hl] at hj'
          dsimp only at hj'
          by_cases hs : k.state = JState.pending ∨ k.state = JState.scheduled
          · rw [if_pos hs] at hj'
            unfold update_job at hj'
            cases hl2 : lookupJob db jid0 with
            | none =>
                rw [hl2, hj] at hj'
                rw [← Option.some.inj hj']
            | some k2 =>
                rw [hl2] at hj'
                rw [lookupJob_setJob] at hj'
                by_cases hq : jid = (Job.id k2)
                · rw [if_pos hq] at hj'
                  rw [← Option.some.inj hj']
                  exact le_trans hjbound ht
                · rw [if_neg hq, hj] at hj'
                  rw [← Option.some.inj hj']
          · rw [if_neg hs] at hj'
            rw [hj] at hj'
            rw [← Option.some.inj hj']
  | purgeOp =>
      simp only [step, purge_completed] at hj'
      have hmem := lookupJob_mem_id hj'
      have hin : j' ∈ db := (List.mem_filter.1 hmem.1).1
      have hjj : j' = j :=
        eq_of_mem_ids_nodup hnodup hin hjmem.1 (by rw [hmem.2, hjmem.2])
      rw [hjj]

/-- C9 (amended): starting from an empty store, over any operation sequence
performed at non-decreasing wall-clock times, `updated_at ≥ created_at`
holds for every job, and each job's `updated_at` is non-decreasing across
every step.  (It is *not* refreshed by every mutation: the claim transition
of `get_next_job` and its scheduled→pending promotions leave `updated_at`
untouched — see the counterexample — but monotonicity still holds because
no operation ever writes an older time.) -/
theorem c9_updated_amended (parse : String → Option DT) (bb : Int)
    (t0 : Int) (tr : List (Op × Int)) (hm : timesMono t0 tr = true) :
    (∀ j ∈ runTrace parse bb [] tr, j.created_at ≤ j.updated_at) ∧
    (∀ pre op t suf, tr = pre ++ (op, t) :: suf →
      ∀ jid j j', lookupJob (runTrace parse bb [] pre) jid = some j →
        lookupJob (step parse bb (runTrace parse bb [] pre) op t) jid
          = some j' →
        j.updated_at ≤ j'.updated_at) := by
  constructor
  · intro j hj
    exact (timeInv_run parse bb tr t0 []
      (by intro j h; simp at h) hm j hj).1
  · intro pre op t suf heq jid j j' hj hj'
    subst heq
    obtain ⟨hmpre, hend⟩ := timesMono_append t0 pre (op, t) suf hm
    have hinv := timeInv_run parse bb pre t0 []
      (by intro j h; simp at h) hmpre
    have hnodup := ids_nodup_run parse bb [] pre (by simp)
    exact updated_step_mono parse bb _ op hinv hend hnodup hj hj'

/-- Witness for C9's amended statement on a concrete monotone-time trace
that exercises the claim transition. -/
theorem c9_updated_amended_witness :
    (∀ j ∈ runTrace parseFail 2 [] tr9w, j.created_at ≤ j.updated_at) ∧
    (∀ pre op t suf, tr9w = pre ++ (op, t) :: suf →
      ∀ jid j j', lookupJob (runTrace parseFail 2 [] pre) jid = some j →
        lookupJob (step parseFail 2 (runTrace parseFail 2 [] pre) op t) jid
          = some j' →
        j.updated_at ≤ j'.updated_at) :=
  c9_updated_amended parseFail 2 0 tr9w rfl
